import Mathlib

/-!
Resolution and grouping of signature tables in interfacer's `generate/std`.

A shallow embedding of `generate/std/main.go`.

* A Go `string` is a Lean `String`; `len` is the UTF-8 byte count and `<` is the
  lexicographic order (on valid UTF-8, byte order and code-point order agree).
* A Go `map[string]string` is a list of key/value pairs with distinct keys
  (`GoMap`).  A `for … range m` statement visits the entries in an unspecified
  order; that order is the explicit parameter `Range` of the environment.
* `sort.Sort` is an insertion sort by the `Less` method; for a strict total
  order the sorted permutation is unique.
* `interfacer.FromScope` is declared outside `generate/std` and is a parameter of
  the environment.  Where a property needs them, two facts of Go declarations
  are assumed of it: names are identifiers (`Env.Identifiers`) and a name has
  one type (`Env.OneTypePerName`).
-/

namespace Interfacer

/-! ## Strings -/

/-- Go `len(s)`: the number of bytes of `s`. -/
def len (s : String) : Nat := s.utf8ByteSize

/-- Pieces of a character list around each occurrence of `sep`. -/
def splitChars (sep : Char) : List Char → List (List Char)
  | [] => [[]]
  | c :: cs =>
    if c = sep then [] :: splitChars sep cs
    else
      match splitChars sep cs with
      | [] => [[c]]
      | p :: ps => (c :: p) :: ps

/-- Go `strings.Split(s, sep)` for a one-byte separator. -/
def stringsSplit (s : String) (sep : Char) : List String :=
  (splitChars sep s.data).map String.mk

/-- Whether `sub` occurs as a contiguous block of the character list. -/
def hasSub (sub : List Char) : List Char → Bool
  | [] => sub.isEmpty
  | c :: cs => sub.isPrefixOf (c :: cs) || hasSub sub cs

/-- Go `strings.Contains(s, substr)`. -/
def stringsContains (s substr : String) : Bool := hasSub substr.data s.data

/-! ## `byLength` and sorting -/

/-- Go `type byLength []string`. -/
abbrev byLength := List String

/-- The body of `byLength.Less`, on the two strings `l[i]` and `l[j]`. -/
def lessStr (a b : String) : Bool :=
  if len a = len b then decide (a < b) else decide (len a < len b)

/-- Method `byLength.Len`. -/
def byLength.Len (l : byLength) : Nat := l.length

/-- Method `byLength.Less`; the indices are in range, as `sort.Sort` guarantees. -/
def byLength.Less (l : byLength) (i j : Fin l.length) : Bool :=
  lessStr (l.get i) (l.get j)

/-- Modelled from the spec: `interfacer.ByAlph` is declared outside `generate/std`; the
spec orders a scope's entries "alphabetically by full Qualified Name", so its `Less`
compares the two strings with `<`. -/
def alphLess (a b : String) : Bool := decide (a < b)

/-- Go `sort.Sort` on a string slice whose `Less` compares elements with `less`:
the slice is rearranged so that no element is `less` than an earlier one. -/
def sortSort (less : String → String → Bool) (l : List String) : List String :=
  l.insertionSort (fun a b => less b a = false)

/-- The conditions under which `less` is a strict total order. -/
def StrictTotal (less : String → String → Bool) : Prop :=
  (∀ a, less a a = false) ∧
  (∀ a b c, less a b = true → less b c = true → less a c = true) ∧
  (∀ a b, a ≠ b → less a b = true ∨ less b a = true)

/-! ## Qualified names -/

/-- Go `pkgName`. -/
def pkgName (fullname : String) : String :=
  let sp := stringsSplit fullname '.'
  if sp.length = 1 then "" else sp.headD ""

/-- Go `fullName`. -/
def fullName (path name : String) : String :=
  if path = "" then name else path ++ "." ++ name

/-! ## Maps -/

/-- A Go `map[string]string`: its entries, with distinct keys, in the order a
`range` statement visits them. -/
abbrev GoMap := List (String × String)

/-- The keys of a map. -/
def GoMap.keys (m : GoMap) : List String := m.map Prod.fst

/-- Go `v, ok := m[k]`. -/
def GoMap.get? (m : GoMap) (k : String) : Option String := m.lookup k

/-- Go `m[k] = v`. -/
def GoMap.set (m : GoMap) (k v : String) : GoMap :=
  if (m.lookup k).isSome then m.map (fun e => if e.1 = k then (k, v) else e)
  else m ++ [(k, v)]

/-! ## `prepare` -/

/-- Go `type pkgType struct { Type, Path string }`. -/
structure pkgType where
  Type_ : String
  Path : String
deriving DecidableEq, Repr

/-- The two local maps of `prepare`; they are only indexed, so each is the function
from a key to its value, the zero value for an absent key. -/
structure prepMaps where
  pkgNames : String → List String
  nameTypes : String → String

/-- One iteration of the first loop of `prepare`. -/
def prepareStep (st : prepMaps) (e : String × String) : prepMaps :=
  let typestr := e.1
  let fullname := e.2
  let path := pkgName fullname
  { pkgNames := fun p => if p = path then st.pkgNames path ++ [fullname] else st.pkgNames p
    nameTypes := fun n => if n = fullname then typestr else st.nameTypes n }

/-- The first loop of `prepare`, over the entries of `in` in visiting order. -/
def prepareMaps (in_ : GoMap) : prepMaps :=
  in_.foldl prepareStep ⟨fun _ => [], fun _ => ""⟩

/-- The rows one iteration of the second loop of `prepare` appends for `path`. -/
def prepareGroup (st : prepMaps) (path : String) : List pkgType :=
  (sortSort alphLess (st.pkgNames path)).foldl
    (fun result fullname => result ++ [⟨st.nameTypes fullname, fullname⟩]) []

/-- Go `prepare`; `pkgs` is the package-level scope list and `in_` lists the entries of
the argument map in the order the `range` statement visits them. -/
def prepare (pkgs : List String) (in_ : GoMap) : List pkgType :=
  let st := prepareMaps in_
  pkgs.foldl
    (fun result path =>
      (sortSort alphLess (st.pkgNames path)).foldl
        (fun result fullname => result ++ [⟨st.nameTypes fullname, fullname⟩]) result)
    []

/-- The row of an entry `typestr ↦ fullname` of the argument map. -/
def rowOf (e : String × String) : pkgType := ⟨e.1, e.2⟩

/-! ## `generate` -/

/-- The value handed to the template. -/
structure tmplData where
  Pkgs : List String
  Ifaces : List pkgType
  Funcs : List pkgType
deriving DecidableEq, Repr

/-- What `generate` takes from outside `main.go`: scopes `σ`, errors `ε`, writer states `ω`. -/
structure Env (σ ε ω : Type) where
  /-- Go `types.Universe`. -/
  Universe : σ
  /-- Go `types.DefaultImport(imported, path)` followed by `pkg.Scope()`. -/
  DefaultImport : String → Except ε σ
  /-- Go `interfacer.FromScope(scope, all)`. -/
  FromScope : σ → Bool → GoMap × GoMap
  /-- The order in which a `range` statement visits the entries of a map. -/
  Range : GoMap → GoMap
  /-- Go `tmpl.Execute(w, data)`: the writer afterwards and the error returned. -/
  Execute : ω → tmplData → ω × Option ε

/-- An environment respects Go's maps: `range` visits every entry once, and the
maps of `FromScope` have distinct keys. -/
def Env.WF {σ ε ω : Type} (env : Env σ ε ω) : Prop :=
  (∀ m, (env.Range m).Perm m) ∧
  ∀ s all, (env.FromScope s all).1.keys.Nodup ∧ (env.FromScope s all).2.keys.Nodup

/-- Lines 106-115: the scope of `path` and the `all` flag, or the import error. -/
def scopeOf {σ ε ω : Type} (env : Env σ ε ω) (path : String) : Except ε (σ × Bool) :=
  if path ≠ "" then
    match env.DefaultImport path with
    | .error err => .error err
    | .ok scope => .ok (scope, false)
  else .ok (env.Universe, true)

/-- Lines 117-122 (and 123-128): merge a scope's local map, as visited, into a table. -/
def mergeInto (path : String) (table : GoMap) (loc : GoMap) : GoMap :=
  loc.foldl
    (fun t e => if (t.get? e.1).isSome then t else t.set e.1 (fullName path e.2))
    table

/-- The loop of lines 102-129 over the sorted list. -/
def generateLoop {σ ε ω : Type} (env : Env σ ε ω) :
    List String → GoMap → GoMap → Except ε (GoMap × GoMap)
  | [], ifaces, funcs => .ok (ifaces, funcs)
  | path :: rest, ifaces, funcs =>
    if stringsContains path "internal" then generateLoop env rest ifaces funcs
    else
      match scopeOf env path with
      | .error err => .error err
      | .ok (scope, all) =>
        generateLoop env rest
          (mergeInto path ifaces (env.Range (env.FromScope scope all).1))
          (mergeInto path funcs (env.Range (env.FromScope scope all).2))

/-- Lines 98-129: the two tables `ifaces` and `funcs` after the loop. -/
def tables {σ ε ω : Type} (env : Env σ ε ω) (pkgs : List String) :
    Except ε (GoMap × GoMap) :=
  generateLoop env (sortSort lessStr pkgs) [] []

/-- Lines 130-137: the argument of `tmpl.Execute`. -/
def templateData {σ ε ω : Type} (env : Env σ ε ω) (pkgs : List String) :
    Except ε tmplData :=
  match tables env pkgs with
  | .error err => .error err
  | .ok (ifaces, funcs) =>
    .ok { Pkgs := sortSort lessStr pkgs
          Ifaces := prepare (sortSort lessStr pkgs) (env.Range ifaces)
          Funcs := prepare (sortSort lessStr pkgs) (env.Range funcs) }

/-- The state `generate` leaves behind and the error it returns. -/
structure genResult (ε ω : Type) where
  pkgs : List String
  w : ω
  err : Option ε

/-- Go `generate`, from the package-level list `pkgs` and the writer `w`. -/
def generate {σ ε ω : Type} (env : Env σ ε ω) (pkgs : List String) (w : ω) :
    genResult ε ω :=
  match templateData env pkgs with
  | .error err => ⟨sortSort lessStr pkgs, w, some err⟩
  | .ok data => ⟨sortSort lessStr pkgs, (env.Execute w data).1, (env.Execute w data).2⟩

/-- The local maps line 116 obtains for `path`; none for a path the loop skips
(line 103) or whose import fails (line 110). -/
def extracted {σ ε ω : Type} (env : Env σ ε ω) (path : String) : Option (GoMap × GoMap) :=
  if stringsContains path "internal" then none
  else
    match scopeOf env path with
    | .error _ => none
    | .ok (scope, all) => some (env.FromScope scope all)

/-- First-writer-wins in the words of the specification: the qualified name of the
signature `S` comes from the first scope of the list that is not skipped and whose
extracted map, selected by `sel`, contains `S`. -/
def firstWriter {σ ε ω : Type} (env : Env σ ε ω) (sel : GoMap × GoMap → GoMap) :
    List String → String → Option String
  | [], _ => none
  | A :: rest, S =>
    match extracted env A with
    | none => firstWriter env sel rest S
    | some maps =>
      match (sel maps).get? S with
      | some n => some (fullName A n)
      | none => firstWriter env sel rest S

/-- The loop passes `path` to the loader and the import fails. -/
def failsToLoad {σ ε ω : Type} (env : Env σ ε ω) (path : String) : Prop :=
  path ≠ "" ∧ stringsContains path "internal" = false ∧
    ∃ err, env.DefaultImport path = .error err

/-- The error with which the loop of lines 102-129 returns, if it does: that of the
first path of the list that is passed to the loader and fails. -/
def firstError {σ ε ω : Type} (env : Env σ ε ω) : List String → Option ε
  | [] => none
  | path :: rest =>
    if stringsContains path "internal" then firstError env rest
    else
      match scopeOf env path with
      | .error err => some err
      | .ok _ => firstError env rest

/-- Whether the loop processes `path`: the negation of the test of line 103. -/
def notInternal (path : String) : Bool := !stringsContains path "internal"

/-- What Go guarantees of the names `FromScope` returns, which the specification calls
"the exported identifier for a signature": a Go identifier contains no `"."`. -/
def Env.Identifiers {σ ε ω : Type} (env : Env σ ε ω) : Prop :=
  ∀ s all, (∀ e ∈ (env.FromScope s all).1, '.' ∉ e.2.data) ∧
    (∀ e ∈ (env.FromScope s all).2, '.' ∉ e.2.data)

/-- What Go guarantees of the maps `FromScope` returns: a scope declares a name once,
with one type, so no two signatures of one map carry the same name. -/
def Env.OneTypePerName {σ ε ω : Type} (env : Env σ ε ω) : Prop :=
  ∀ s all, ((env.FromScope s all).1.map Prod.snd).Nodup ∧
    ((env.FromScope s all).2.map Prod.snd).Nodup

/-- The first scope of the list that is not skipped and whose extracted map, selected
by `sel`, contains the signature `S`, with the name that scope gives `S`. -/
def firstExposing {σ ε ω : Type} (env : Env σ ε ω) (sel : GoMap × GoMap → GoMap) :
    List String → String → Option (String × String)
  | [], _ => none
  | A :: rest, S =>
    match extracted env A with
    | none => firstExposing env sel rest S
    | some maps =>
      match (sel maps).get? S with
      | some n => some (A, n)
      | none => firstExposing env sel rest S

/-- The scope that supplied a row of a grouped output: the scope whose iteration of the
loop wrote the row's signature into the table, which is the first scope of the sorted
list that exposes the signature. -/
def supplier {σ ε ω : Type} (env : Env σ ε ω) (sel : GoMap × GoMap → GoMap)
    (sorted : List String) (r : pkgType) : Option String :=
  (firstExposing env sel sorted r.Type_).map Prod.fst

/-- The scope ordering invariant of a grouped output, `sup` giving the scope that
supplied a row: a row of a scope that is before the scope of another row in the scope
ordering (shorter path, or of equal length and lexically smaller) is before that row,
and the rows of one scope are contiguous. -/
def SupplierOrdered (sup : pkgType → Option String) (rows : List pkgType) : Prop :=
  (∀ (i j : Nat) (hi : i < rows.length) (hj : j < rows.length) (p₁ p₂ : String),
    sup (rows.get ⟨i, hi⟩) = some p₁ → sup (rows.get ⟨j, hj⟩) = some p₂ →
    (len p₁ < len p₂ ∨ (len p₁ = len p₂ ∧ p₁ < p₂)) → i < j) ∧
  (∀ (i k j : Nat) (hi : i < rows.length) (hk : k < rows.length) (hj : j < rows.length),
    i < k → k < j → sup (rows.get ⟨i, hi⟩) = sup (rows.get ⟨j, hj⟩) →
      sup (rows.get ⟨k, hk⟩) = sup (rows.get ⟨i, hi⟩))

/-- The universal scope comes first in a grouped output, `sup` giving the scope that
supplied a row: every row supplied by the empty path is before every row supplied by
a non-empty path. -/
def UniversalFirst (sup : pkgType → Option String) (rows : List pkgType) : Prop :=
  ∀ (i j : Nat) (hi : i < rows.length) (hj : j < rows.length) (p : String),
    sup (rows.get ⟨i, hi⟩) = some "" → sup (rows.get ⟨j, hj⟩) = some p → p ≠ "" → i < j

/-! ## The scenario of the specification -/

/-- Scopes of the scenario. -/
inductive DemoScope where
  | universe | bytes | io | ioInternal | other
deriving DecidableEq, Repr

/-- Loader of the scenario: `"os"` cannot be imported. -/
def demoImport (path : String) : Except String DemoScope :=
  if path = "bytes" then .ok .bytes
  else if path = "io" then .ok .io
  else if path = "io/internal" then .ok .ioInternal
  else if path = "os" then .error "can't find import: os"
  else .ok .other

/-- Extractor of the scenario: `io` names the shape `S1` `Reader`, `bytes` names it
`ByteReader`. -/
def demoFromScope (s : DemoScope) (_all : Bool) : GoMap × GoMap :=
  match s with
  | .universe => ([("S0", "error")], [])
  | .bytes => ([("S1", "ByteReader"), ("S3", "Scanner")], [("F2", "MapFunc")])
  | .io => ([("S1", "Reader"), ("S2", "Closer")], [("F1", "WalkFunc")])
  | .ioInternal => ([("S1", "hidden"), ("S9", "Private")], [("F9", "privateFunc")])
  | .other => ([], [])

/-- Environment of the scenario: `range` visits a map back to front, the writer
records what the template was executed with. -/
def demoEnv : Env DemoScope String (List tmplData) where
  Universe := .universe
  DefaultImport := demoImport
  FromScope := demoFromScope
  Range := List.reverse
  Execute := fun w d => (w ++ [d], none)

/-- The scenario with a writer that cannot be written to. -/
def brokenWriterEnv : Env DemoScope String (List tmplData) :=
  { demoEnv with Execute := fun w _ => (w, some "write: file already closed") }

/-- Loader of a scenario with paths that contain a dot: `a.b` and `./x` hold the
declarations of `io`, `zz` those of `bytes`. -/
def dotImport (path : String) : Except String DemoScope :=
  if path = "a.b" then .ok .io
  else if path = "./x" then .ok .io
  else if path = "zz" then .ok .bytes
  else .ok .other

/-- The scenario with the loader for dotted paths. -/
def dottedPathEnv : Env DemoScope String (List tmplData) :=
  { demoEnv with DefaultImport := dotImport }

/-- The scenario with a universal scope that exposes one signature string both as an
interface shape and as a function shape. -/
def leakyEnv : Env DemoScope String (List tmplData) :=
  { demoEnv with FromScope := fun _ _ => ([("S", "Runner")], [("S", "RunFunc")]) }

/-- A visiting order that differs from the given one on maps with the keys `S1`, `S2`. -/
def s2First (m : GoMap) : GoMap := if m.keys = ["S1", "S2"] then m.reverse else m

/-- Scope list of the scenario. -/
def demoPkgs : List String := ["", "bytes", "io", "io/internal"]

/-- What the template is executed with in the scenario. -/
def demoData : tmplData where
  Pkgs := ["", "io", "bytes", "io/internal"]
  Ifaces := [⟨"S0", "error"⟩, ⟨"S2", "io.Closer"⟩, ⟨"S1", "io.Reader"⟩,
    ⟨"S3", "bytes.Scanner"⟩]
  Funcs := [⟨"F1", "io.WalkFunc"⟩, ⟨"F2", "bytes.MapFunc"⟩]

/-! ## The scope ordering -/

theorem lessStr_iff (a b : String) :
    lessStr a b = true ↔ len a < len b ∨ (len a = len b ∧ a < b) := by
  unfold lessStr
  by_cases h : len a = len b
  · simp [h]
  · simp [h]

theorem lessStr_irrefl (a : String) : lessStr a a = false := by
  have h : ¬ lessStr a a = true := by
    rw [lessStr_iff]
    simp
  simpa using h

theorem lessStr_trans {a b c : String} (hab : lessStr a b = true) (hbc : lessStr b c = true) :
    lessStr a c = true := by
  rw [lessStr_iff] at *
  rcases hab with h1 | ⟨h1, h1'⟩ <;> rcases hbc with h2 | ⟨h2, h2'⟩
  · exact Or.inl (by omega)
  · exact Or.inl (by omega)
  · exact Or.inl (by omega)
  · exact Or.inr ⟨by omega, lt_trans h1' h2'⟩

theorem lessStr_asymm {a b : String} (hab : lessStr a b = true) : lessStr b a = false := by
  by_contra h
  have h' : lessStr b a = true := by simpa using h
  have := lessStr_trans hab h'
  rw [lessStr_irrefl] at this
  exact Bool.false_ne_true this

theorem lessStr_connected {a b : String} (hne : a ≠ b) :
    lessStr a b = true ∨ lessStr b a = true := by
  rw [lessStr_iff, lessStr_iff]
  rcases Nat.lt_trichotomy (len a) (len b) with h | h | h
  · exact Or.inl (Or.inl h)
  · rcases lt_trichotomy a b with h' | h' | h'
    · exact Or.inl (Or.inr ⟨h, h'⟩)
    · exact absurd h' hne
    · exact Or.inr (Or.inr ⟨h.symm, h'⟩)
  · exact Or.inr (Or.inl h)

/-- C9: `byLength.Less` compares by length first and lexically on equal lengths, and is
a strict total order on strings: irreflexive, transitive, and exactly one of
`Less(a, b)`, `Less(b, a)` holds for distinct `a`, `b`. -/
theorem byLength_Less_strict_total_order (l : byLength) :
    (∀ i j : Fin l.length, l.Less i j = true ↔
      len (l.get i) < len (l.get j) ∨
        (len (l.get i) = len (l.get j) ∧ l.get i < l.get j)) ∧
    (∀ i : Fin l.length, l.Less i i = false) ∧
    (∀ i j k : Fin l.length, l.Less i j = true → l.Less j k = true → l.Less i k = true) ∧
    (∀ i j : Fin l.length, l.get i ≠ l.get j →
      (l.Less i j = true ∧ l.Less j i = false) ∨
        (l.Less i j = false ∧ l.Less j i = true)) := by
  refine ⟨fun i j => lessStr_iff _ _, fun i => lessStr_irrefl _,
    fun i j k h1 h2 => lessStr_trans h1 h2, fun i j hne => ?_⟩
  rcases lessStr_connected hne with h | h
  · exact Or.inl ⟨h, lessStr_asymm h⟩
  · exact Or.inr ⟨lessStr_asymm h, h⟩

/-- C9 at the slice `["io", "os", "bytes"]`: `"io"` is before `"os"` lexically and
before `"bytes"` by length. -/
theorem byLength_Less_strict_total_order_witness :
    byLength.Less ["io", "os", "bytes"] ⟨0, by decide⟩ ⟨1, by decide⟩ = true ∧
    byLength.Less ["io", "os", "bytes"] ⟨1, by decide⟩ ⟨2, by decide⟩ = true ∧
    byLength.Less ["io", "os", "bytes"] ⟨0, by decide⟩ ⟨2, by decide⟩ = true ∧
    byLength.Less ["io", "os", "bytes"] ⟨2, by decide⟩ ⟨0, by decide⟩ = false :=
  ⟨by decide!, by decide!,
    (byLength_Less_strict_total_order ["io", "os", "bytes"]).2.2.1
      ⟨0, by decide⟩ ⟨1, by decide⟩ ⟨2, by decide⟩ (by decide!) (by decide!),
    by decide!⟩

/-! ## Qualified names -/

theorem splitChars_of_not_mem (sep : Char) (l : List Char) (h : sep ∉ l) :
    splitChars sep l = [l] := by
  induction l with
  | nil => rfl
  | cons c cs ih =>
    have hc : c ≠ sep := fun e => h (by simp [e])
    have hcs : sep ∉ cs := fun e => h (by simp [e])
    simp [splitChars, hc, ih hcs]

theorem splitChars_append (sep : Char) (p n : List Char) (h : sep ∉ p) :
    splitChars sep (p ++ sep :: n) = p :: splitChars sep n := by
  induction p with
  | nil => simp [splitChars]
  | cons c cs ih =>
    have hc : c ≠ sep := fun e => h (by simp [e])
    have hcs : sep ∉ cs := fun e => h (by simp [e])
    simp [splitChars, hc, ih hcs]

theorem splitChars_ne_nil (sep : Char) (l : List Char) : splitChars sep l ≠ [] := by
  induction l with
  | nil => simp [splitChars]
  | cons c cs ih =>
    unfold splitChars
    split
    · simp
    · split <;> simp

theorem pkgName_of_no_dot (s : String) (h : '.' ∉ s.data) : pkgName s = "" := by
  simp [pkgName, stringsSplit, splitChars_of_not_mem _ _ h]

theorem pkgName_dotted (path name : String) (h : '.' ∉ path.data) :
    pkgName (path ++ "." ++ name) = path := by
  have e : (path ++ "." ++ name).data = path.data ++ '.' :: name.data := by
    simp [String.data_append]
  have hne := splitChars_ne_nil '.' name.data
  simp only [pkgName, stringsSplit, e, splitChars_append _ _ _ h, List.map_cons,
    List.length_cons, List.length_map, List.headD_cons]
  have hlen : (splitChars '.' name.data).length + 1 ≠ 1 := by
    cases hs : splitChars '.' name.data with
    | nil => exact absurd hs hne
    | cons a as => simp
  rw [if_neg hlen]

/-- C6, as amended: `fullName(path, name)` is `name` for the empty path and
`path + "." + name` otherwise; and when the path contains no `"."` (and, for the empty
path, neither does the name), `pkgName` recovers the path from the qualified name. -/
theorem pkgName_fullName_round_trip (path name : String) (hp : '.' ∉ path.data)
    (hn : path = "" → '.' ∉ name.data) :
    fullName path name = (if path = "" then name else path ++ "." ++ name) ∧
    pkgName (fullName path name) = path := by
  refine ⟨rfl, ?_⟩
  unfold fullName
  by_cases h : path = ""
  · rw [if_pos h, pkgName_of_no_dot _ (hn h), h]
  · rw [if_neg h, pkgName_dotted _ _ hp]

/-- C6 at `io` / `Reader`. -/
theorem pkgName_fullName_round_trip_witness :
    fullName "io" "Reader" = "io.Reader" ∧ pkgName (fullName "io" "Reader") = "io" :=
  pkgName_fullName_round_trip "io" "Reader" (by decide) (by decide)

/-- C6 as stated fails for a path that contains a dot: the qualified name of `Type` in
`golang.org/x/tools/go/types` is parsed back to `golang`. -/
theorem pkgName_fullName_dotted_path :
    pkgName (fullName "golang.org/x/tools/go/types" "Type") = "golang" ∧
    pkgName (fullName "golang.org/x/tools/go/types" "Type") ≠
      "golang.org/x/tools/go/types" := by
  decide

/-! ## Sorting -/

theorem strictTotal_lessStr : StrictTotal lessStr :=
  ⟨lessStr_irrefl, fun _ _ _ h1 h2 => lessStr_trans h1 h2, fun _ _ h => lessStr_connected h⟩

theorem strictTotal_alphLess : StrictTotal alphLess := by
  refine ⟨fun a => ?_, fun a b c h1 h2 => ?_, fun a b hne => ?_⟩
  · simp [alphLess]
  · simp only [alphLess, decide_eq_true_eq] at *
    exact lt_trans h1 h2
  · simp only [alphLess, decide_eq_true_eq]
    rcases lt_trichotomy a b with h | h | h
    · exact Or.inl h
    · exact absurd h hne
    · exact Or.inr h

theorem StrictTotal.asymm {less : String → String → Bool} (h : StrictTotal less)
    {a b : String} (hab : less a b = true) : less b a = false := by
  by_contra hba
  have hba' : less b a = true := by simpa using hba
  have := h.2.1 a b a hab hba'
  rw [h.1 a] at this
  exact Bool.false_ne_true this

theorem StrictTotal.le_trans {less : String → String → Bool} (h : StrictTotal less)
    {a b c : String} (hab : less b a = false) (hbc : less c b = false) :
    less c a = false := by
  by_contra hca
  have hca' : less c a = true := by simpa using hca
  by_cases e : a = b
  · subst e
    rw [hca'] at hbc
    exact Bool.false_ne_true hbc.symm
  · rcases h.2.2 a b e with h1 | h1
    · have := h.2.1 c a b hca' h1
      rw [this] at hbc
      exact Bool.false_ne_true hbc.symm
    · rw [h1] at hab
      exact Bool.false_ne_true hab.symm

theorem StrictTotal.le_antisymm {less : String → String → Bool} (h : StrictTotal less)
    {a b : String} (hab : less b a = false) (hba : less a b = false) : a = b := by
  by_contra e
  rcases h.2.2 a b e with h1 | h1
  · rw [h1] at hba
    exact Bool.false_ne_true hba.symm
  · rw [h1] at hab
    exact Bool.false_ne_true hab.symm

theorem sortSort_perm (less : String → String → Bool) (l : List String) :
    (sortSort less l).Perm l :=
  List.perm_insertionSort _ l

theorem sortSort_pairwise {less : String → String → Bool} (h : StrictTotal less)
    (l : List String) : (sortSort less l).Pairwise (fun a b => less b a = false) := by
  haveI : IsTotal String (fun a b => less b a = false) :=
    ⟨fun a b => by
      by_cases hab : less a b = true
      · exact Or.inl (h.asymm hab)
      · exact Or.inr (by simpa using hab)⟩
  haveI : IsTrans String (fun a b => less b a = false) :=
    ⟨fun a b c hab hbc => h.le_trans hab hbc⟩
  exact List.sorted_insertionSort (fun a b => less b a = false) l

theorem pairwise_le_unique {less : String → String → Bool} (h : StrictTotal less)
    {l₁ l₂ : List String} (hp : l₁.Perm l₂)
    (h₁ : l₁.Pairwise (fun a b => less b a = false))
    (h₂ : l₂.Pairwise (fun a b => less b a = false)) : l₁ = l₂ := by
  haveI : IsAntisymm String (fun a b => less b a = false) :=
    ⟨fun a b hab hba => h.le_antisymm hab hba⟩
  exact List.eq_of_perm_of_sorted hp h₁ h₂

theorem sortSort_congr {less : String → String → Bool} (h : StrictTotal less)
    {l₁ l₂ : List String} (hp : l₁.Perm l₂) : sortSort less l₁ = sortSort less l₂ :=
  pairwise_le_unique h (((sortSort_perm less l₁).trans hp).trans (sortSort_perm less l₂).symm)
    (sortSort_pairwise h l₁) (sortSort_pairwise h l₂)

theorem sortSort_of_pairwise (less : String → String → Bool) {l : List String}
    (hl : l.Pairwise (fun a b => less b a = false)) : sortSort less l = l :=
  List.Sorted.insertionSort_eq hl

theorem mem_sortSort {less : String → String → Bool} {l : List String} {a : String} :
    a ∈ sortSort less l ↔ a ∈ l :=
  (sortSort_perm less l).mem_iff

/-! ## The two maps of `prepare` -/

theorem foldl_prepareStep_pkgNames (in_ : GoMap) (st : prepMaps) (p : String) :
    (in_.foldl prepareStep st).pkgNames p =
      st.pkgNames p ++ (in_.filter (fun e => pkgName e.2 = p)).map Prod.snd := by
  induction in_ generalizing st with
  | nil => simp
  | cons e rest ih =>
    rw [List.foldl_cons, ih]
    by_cases h : pkgName e.2 = p
    · simp [prepareStep, h, List.filter_cons]
    · have h' : ¬ p = pkgName e.2 := fun e' => h e'.symm
      simp [prepareStep, h, h', List.filter_cons]

theorem prepareMaps_pkgNames (in_ : GoMap) (p : String) :
    (prepareMaps in_).pkgNames p = (in_.filter (fun e => pkgName e.2 = p)).map Prod.snd := by
  simp [prepareMaps, foldl_prepareStep_pkgNames]

theorem foldl_prepareStep_nameTypes_of_not_mem (in_ : GoMap) (st : prepMaps) (n : String)
    (hn : n ∉ in_.map Prod.snd) : (in_.foldl prepareStep st).nameTypes n = st.nameTypes n := by
  induction in_ generalizing st with
  | nil => rfl
  | cons e rest ih =>
    have h1 : n ≠ e.2 := fun e' => hn (by simp [e'])
    have h2 : n ∉ rest.map Prod.snd := fun h => hn (by simp at h ⊢; exact Or.inr h)
    rw [List.foldl_cons, ih _ h2]
    simp [prepareStep, h1]

theorem foldl_prepareStep_nameTypes (in_ : GoMap) (st : prepMaps)
    (hv : (in_.map Prod.snd).Nodup) (e : String × String) (he : e ∈ in_) :
    (in_.foldl prepareStep st).nameTypes e.2 = e.1 := by
  induction in_ generalizing st with
  | nil => simp at he
  | cons x rest ih =>
    rw [List.map_cons, List.nodup_cons] at hv
    rw [List.foldl_cons]
    rcases List.mem_cons.1 he with h | h
    · subst h
      rw [foldl_prepareStep_nameTypes_of_not_mem _ _ _ hv.1]
      simp [prepareStep]
    · exact ih _ hv.2 h

theorem prepareMaps_nameTypes (in_ : GoMap) (hv : (in_.map Prod.snd).Nodup)
    (e : String × String) (he : e ∈ in_) : (prepareMaps in_).nameTypes e.2 = e.1 :=
  foldl_prepareStep_nameTypes in_ _ hv e he

/-! ## The result of `prepare` as a concatenation of groups -/

theorem foldl_append_singleton {α β : Type} (f : α → β) (l : List α) (init : List β) :
    l.foldl (fun result x => result ++ [f x]) init = init ++ l.map f := by
  induction l generalizing init with
  | nil => simp
  | cons x xs ih => simp [ih]

theorem prepareGroup_eq (st : prepMaps) (path : String) :
    prepareGroup st path =
      (sortSort alphLess (st.pkgNames path)).map (fun n => ⟨st.nameTypes n, n⟩) := by
  simp [prepareGroup, foldl_append_singleton]

theorem foldl_groups (st : prepMaps) (pkgs : List String) (init : List pkgType) :
    pkgs.foldl
      (fun result path =>
        (sortSort alphLess (st.pkgNames path)).foldl
          (fun result fullname => result ++ [⟨st.nameTypes fullname, fullname⟩]) result)
      init = init ++ pkgs.flatMap (prepareGroup st) := by
  induction pkgs generalizing init with
  | nil => simp
  | cons p ps ih =>
    rw [List.foldl_cons, ih, foldl_append_singleton, List.flatMap_cons, prepareGroup_eq,
      List.append_assoc]

theorem prepare_eq_flatMap (pkgs : List String) (in_ : GoMap) :
    prepare pkgs in_ = pkgs.flatMap (prepareGroup (prepareMaps in_)) := by
  simp [prepare, foldl_groups]

theorem pkgName_of_mem_prepareGroup (in_ : GoMap) (path : String) (r : pkgType)
    (hr : r ∈ prepareGroup (prepareMaps in_) path) : pkgName r.Path = path := by
  rw [prepareGroup_eq, List.mem_map] at hr
  obtain ⟨n, hn, rfl⟩ := hr
  rw [mem_sortSort, prepareMaps_pkgNames, List.mem_map] at hn
  obtain ⟨e, he, rfl⟩ := hn
  simpa using (List.mem_filter.1 he).2

theorem mem_in_of_mem_prepareGroup (in_ : GoMap) (path : String) (r : pkgType)
    (hr : r ∈ prepareGroup (prepareMaps in_) path) : r.Path ∈ in_.map Prod.snd := by
  rw [prepareGroup_eq, List.mem_map] at hr
  obtain ⟨n, hn, rfl⟩ := hr
  rw [mem_sortSort, prepareMaps_pkgNames, List.mem_map] at hn
  obtain ⟨e, he, rfl⟩ := hn
  exact List.mem_map.2 ⟨e, (List.mem_filter.1 he).1, rfl⟩

/-! ## Grouping: order, content and determinism of `prepare` -/

theorem prepareGroup_pairwise (st : prepMaps) (path : String) :
    (prepareGroup st path).Pairwise (fun r₁ r₂ => r₁.Path ≤ r₂.Path) := by
  rw [prepareGroup_eq, List.pairwise_map]
  refine (sortSort_pairwise strictTotal_alphLess (st.pkgNames path)).imp ?_
  intro a b hab
  have : ¬ b < a := by simpa [alphLess] using hab
  exact not_lt.1 this

theorem prepare_pairwise_alphabetical (pkgs : List String) (in_ : GoMap) (hp : pkgs.Nodup) :
    (prepare pkgs in_).Pairwise
      (fun r₁ r₂ => pkgName r₁.Path = pkgName r₂.Path → r₁.Path ≤ r₂.Path) := by
  rw [prepare_eq_flatMap, List.pairwise_flatMap]
  constructor
  · intro p _
    refine (prepareGroup_pairwise (prepareMaps in_) p).imp ?_
    intro a b h _
    exact h
  · refine hp.imp ?_
    intro p q hpq x hx y hy hxy
    rw [pkgName_of_mem_prepareGroup in_ p x hx, pkgName_of_mem_prepareGroup in_ q y hy] at hxy
    exact absurd hxy hpq

/-- C4, as amended: for every input map and every scope list without a repeated path,
any two consecutive rows of the result of `prepare` that belong to one scope's group
(their qualified names parse to the same path) have their qualified names in ascending
lexical order, and so have any two rows of one group; for any scope list, the rows
appended for one element of the list are owned by it and ascending. -/
theorem prepare_groups_alphabetical (pkgs : List String) (in_ : GoMap) (hp : pkgs.Nodup) :
    (∀ (i : Nat) (hi : i + 1 < (prepare pkgs in_).length),
      pkgName ((prepare pkgs in_).get ⟨i, Nat.lt_of_succ_lt hi⟩).Path =
        pkgName ((prepare pkgs in_).get ⟨i + 1, hi⟩).Path →
      ((prepare pkgs in_).get ⟨i, Nat.lt_of_succ_lt hi⟩).Path ≤
        ((prepare pkgs in_).get ⟨i + 1, hi⟩).Path) ∧
    (∀ (i j : Nat) (hi : i < (prepare pkgs in_).length) (hj : j < (prepare pkgs in_).length),
      i < j →
      pkgName ((prepare pkgs in_).get ⟨i, hi⟩).Path =
        pkgName ((prepare pkgs in_).get ⟨j, hj⟩).Path →
      ((prepare pkgs in_).get ⟨i, hi⟩).Path ≤ ((prepare pkgs in_).get ⟨j, hj⟩).Path) ∧
    prepare pkgs in_ = pkgs.flatMap (prepareGroup (prepareMaps in_)) ∧
    (∀ path : String,
      (∀ r ∈ prepareGroup (prepareMaps in_) path, pkgName r.Path = path) ∧
      (prepareGroup (prepareMaps in_) path).Chain' (fun r₁ r₂ => r₁.Path ≤ r₂.Path)) := by
  have hpw := List.pairwise_iff_getElem.1 (prepare_pairwise_alphabetical pkgs in_ hp)
  refine ⟨fun i hi h => ?_, fun i j hi hj hij h => ?_, prepare_eq_flatMap pkgs in_,
    fun path => ⟨fun r hr => pkgName_of_mem_prepareGroup in_ path r hr,
      (prepareGroup_pairwise _ path).chain'⟩⟩
  · exact hpw i (i + 1) (Nat.lt_of_succ_lt hi) hi (Nat.lt_succ_self i) h
  · exact hpw i j hi hj hij h

/-- C4 on the scope list `""`, `io`: the rows are `error`, `io.Closer`, `io.Reader`, and
the two rows of `io`, at indices 1 and 2, are ascending. -/
theorem prepare_groups_alphabetical_witness :
    prepare ["", "io"] [("S1", "io.Reader"), ("S2", "io.Closer"), ("S0", "error")] =
      [⟨"S0", "error"⟩, ⟨"S2", "io.Closer"⟩, ⟨"S1", "io.Reader"⟩] ∧
    ((prepare ["", "io"] [("S1", "io.Reader"), ("S2", "io.Closer"), ("S0", "error")]).get
      ⟨1, by decide!⟩).Path ≤
    ((prepare ["", "io"] [("S1", "io.Reader"), ("S2", "io.Closer"), ("S0", "error")]).get
      ⟨1 + 1, by decide!⟩).Path :=
  ⟨by decide!,
    (prepare_groups_alphabetical ["", "io"]
      [("S1", "io.Reader"), ("S2", "io.Closer"), ("S0", "error")] (by decide)).1 1
      (by decide!) (by decide!)⟩

/-- C4 as stated fails for a scope list with a repeated path: the rows of `io` are
emitted twice, so the group of `io` reads `io.A, io.B, io.A, io.B` and its second and
third rows are consecutive, owned by `io`, and descending. -/
theorem prepare_repeated_path_not_alphabetical :
    prepare ["io", "io"] [("S1", "io.A"), ("S2", "io.B")] =
      [⟨"S1", "io.A"⟩, ⟨"S2", "io.B"⟩, ⟨"S1", "io.A"⟩, ⟨"S2", "io.B"⟩] ∧
    pkgName "io.B" = "io" ∧ pkgName "io.A" = "io" ∧
    ¬ (("io.B" : String) ≤ "io.A") := by
  decide!

theorem prepare_pairwise_parsed_scope (pkgs : List String) (in_ : GoMap)
    (hs : pkgs.Pairwise (fun a b => lessStr b a = false)) :
    (prepare pkgs in_).Pairwise
      (fun r₁ r₂ => lessStr (pkgName r₂.Path) (pkgName r₁.Path) = false) := by
  rw [prepare_eq_flatMap, List.pairwise_flatMap]
  constructor
  · intro p _
    apply List.pairwise_of_forall_mem_list
    intro a ha b hb
    rw [pkgName_of_mem_prepareGroup in_ p a ha, pkgName_of_mem_prepareGroup in_ p b hb]
    exact lessStr_irrefl p
  · refine hs.imp ?_
    intro p q hpq x hx y hy
    rw [pkgName_of_mem_prepareGroup in_ p x hx, pkgName_of_mem_prepareGroup in_ q y hy]
    exact hpq

theorem prepare_index_order (pkgs : List String) (in_ : GoMap)
    (hs : pkgs.Pairwise (fun a b => lessStr b a = false))
    (i j : Nat) (hi : i < (prepare pkgs in_).length) (hj : j < (prepare pkgs in_).length)
    (hless : lessStr (pkgName ((prepare pkgs in_).get ⟨i, hi⟩).Path)
      (pkgName ((prepare pkgs in_).get ⟨j, hj⟩).Path) = true) : i < j := by
  have hpw := List.pairwise_iff_getElem.1 (prepare_pairwise_parsed_scope pkgs in_ hs)
  by_contra hij
  rcases Nat.lt_or_ge j i with h | h
  · have := hpw j i hj hi h
    simp only [List.get_eq_getElem] at hless
    rw [hless] at this
    exact Bool.false_ne_true this.symm
  · have e : i = j := by omega
    subst e
    rw [lessStr_irrefl] at hless
    exact Bool.false_ne_true hless

theorem flatMap_filter_perm {α : Type} (grp : α → String) (l : List α) (pkgs : List String)
    (hp : pkgs.Nodup) :
    (pkgs.flatMap (fun p => l.filter (fun e => grp e = p))).Perm
      (l.filter (fun e => grp e ∈ pkgs)) := by
  induction pkgs with
  | nil => simp
  | cons p ps ih =>
    rw [List.nodup_cons] at hp
    rw [List.flatMap_cons]
    refine ((ih hp.2).append_left _).trans ?_
    have h := List.filter_append_perm (fun e => decide (grp e = p))
      (l.filter (fun e => grp e ∈ p :: ps))
    rw [List.filter_filter, List.filter_filter] at h
    have e₁ : l.filter (fun a => decide (grp a = p) && decide (grp a ∈ p :: ps)) =
        l.filter (fun e => grp e = p) := by
      apply List.filter_congr
      intro x _
      by_cases hx : grp x = p <;> simp [hx]
    have e₂ : l.filter (fun a => (!decide (grp a = p)) && decide (grp a ∈ p :: ps)) =
        l.filter (fun e => grp e ∈ ps) := by
      apply List.filter_congr
      intro x _
      by_cases hx : grp x = p
      · simp [hx, hp.1]
      · simp [hx]
    rw [e₁, e₂] at h
    exact h

theorem prepare_perm (pkgs : List String) (in_ : GoMap)
    (hv : (in_.map Prod.snd).Nodup) (hp : pkgs.Nodup)
    (ho : ∀ e ∈ in_, pkgName e.2 ∈ pkgs) : (prepare pkgs in_).Perm (in_.map rowOf) := by
  rw [prepare_eq_flatMap]
  have h₁ : ∀ p ∈ pkgs, (prepareGroup (prepareMaps in_) p).Perm
      ((in_.filter (fun e => pkgName e.2 = p)).map rowOf) := by
    intro p _
    rw [prepareGroup_eq]
    refine ((sortSort_perm alphLess _).map _).trans ?_
    rw [prepareMaps_pkgNames, List.map_map]
    apply List.Perm.of_eq
    apply List.map_congr_left
    intro e he
    have := prepareMaps_nameTypes in_ hv e (List.mem_filter.1 he).1
    simp [rowOf, this]
  refine (List.Perm.flatMap_left pkgs h₁).trans ?_
  have h₂ : pkgs.flatMap (fun p => (in_.filter (fun e => pkgName e.2 = p)).map rowOf) =
      (pkgs.flatMap (fun p => in_.filter (fun e => pkgName e.2 = p))).map rowOf := by
    rw [List.map_flatMap]
  rw [h₂]
  refine ((flatMap_filter_perm (fun e => pkgName e.2) in_ pkgs hp).map rowOf).trans ?_
  apply List.Perm.of_eq
  congr 1
  apply List.filter_eq_self.2
  intro e he
  simpa using ho e he

/-- C5, as amended: when the scope list has no repeated path, no two signatures of the
map carry the same qualified name, and the owning scope of every entry is listed, the
result of `prepare` holds each entry of the map exactly once and no other row; its
length is the size of the map and no two rows carry the same signature. -/
theorem prepare_partition (pkgs : List String) (in_ : GoMap)
    (hk : in_.keys.Nodup) (hv : (in_.map Prod.snd).Nodup) (hp : pkgs.Nodup)
    (ho : ∀ e ∈ in_, pkgName e.2 ∈ pkgs) :
    (prepare pkgs in_).Perm (in_.map rowOf) ∧
    (prepare pkgs in_).length = in_.length ∧
    ((prepare pkgs in_).map pkgType.Type_).Nodup := by
  have h := prepare_perm pkgs in_ hv hp ho
  refine ⟨h, by simpa using h.length_eq, ?_⟩
  have h' := h.map pkgType.Type_
  rw [List.map_map] at h'
  exact h'.nodup_iff.2 hk

/-- C5 on the table `S1 ↦ io.Reader, S2 ↦ io.Closer, S0 ↦ error`. -/
theorem prepare_partition_witness :
    (prepare ["", "io"] [("S1", "io.Reader"), ("S2", "io.Closer"), ("S0", "error")]).Perm
      ([("S1", "io.Reader"), ("S2", "io.Closer"), ("S0", "error")].map rowOf) ∧
    (prepare ["", "io"] [("S1", "io.Reader"), ("S2", "io.Closer"), ("S0", "error")]).length =
      [("S1", "io.Reader"), ("S2", "io.Closer"), ("S0", "error")].length ∧
    ((prepare ["", "io"] [("S1", "io.Reader"), ("S2", "io.Closer"), ("S0", "error")]).map
      pkgType.Type_).Nodup :=
  prepare_partition ["", "io"] [("S1", "io.Reader"), ("S2", "io.Closer"), ("S0", "error")]
    (by decide) (by decide) (by decide) (by decide)

/-- C5 as stated fails in two ways: a path listed twice emits its rows twice, and two
signatures with one qualified name yield two rows with the same signature while the
other entry is lost. -/
theorem prepare_partition_fails :
    prepare ["io", "io"] [("S1", "io.Reader")] =
      [⟨"S1", "io.Reader"⟩, ⟨"S1", "io.Reader"⟩] ∧
    prepare ["io"] [("S1", "io.N"), ("S2", "io.N")] = [⟨"S2", "io.N"⟩, ⟨"S2", "io.N"⟩] ∧
    (⟨"S1", "io.N"⟩ : pkgType) ∉ prepare ["io"] [("S1", "io.N"), ("S2", "io.N")] := by
  decide!

theorem prepareGroup_congr_of_perm (in₁ in₂ : GoMap) (hperm : in₁.Perm in₂)
    (hv : (in₁.map Prod.snd).Nodup) (p : String) :
    prepareGroup (prepareMaps in₁) p = prepareGroup (prepareMaps in₂) p := by
  have hv₂ : (in₂.map Prod.snd).Nodup := (hperm.map Prod.snd).nodup_iff.1 hv
  rw [prepareGroup_eq, prepareGroup_eq, prepareMaps_pkgNames, prepareMaps_pkgNames]
  have hs : sortSort alphLess ((in₁.filter (fun e => pkgName e.2 = p)).map Prod.snd) =
      sortSort alphLess ((in₂.filter (fun e => pkgName e.2 = p)).map Prod.snd) :=
    sortSort_congr strictTotal_alphLess ((hperm.filter _).map _)
  rw [hs]
  apply List.map_congr_left
  intro n hn
  rw [mem_sortSort, List.mem_map] at hn
  obtain ⟨e, he, rfl⟩ := hn
  have he₂ : e ∈ in₂ := (List.mem_filter.1 he).1
  have he₁ : e ∈ in₁ := hperm.mem_iff.2 he₂
  rw [prepareMaps_nameTypes in₁ hv e he₁, prepareMaps_nameTypes in₂ hv₂ e he₂]

/-- C7, as amended: when no two signatures of the map carry the same qualified name,
`prepare` yields the same rows, `Type` fields included, in whatever order the entries of
the map are visited. -/
theorem prepare_deterministic (pkgs : List String) (in₁ in₂ : GoMap)
    (hperm : in₁.Perm in₂) (hv : (in₁.map Prod.snd).Nodup) :
    prepare pkgs in₁ = prepare pkgs in₂ := by
  rw [prepare_eq_flatMap, prepare_eq_flatMap]
  congr 1
  funext p
  exact prepareGroup_congr_of_perm in₁ in₂ hperm hv p

/-- C7 on two visiting orders of one table. -/
theorem prepare_deterministic_witness :
    prepare ["", "io"] [("S1", "io.Reader"), ("S2", "io.Closer"), ("S0", "error")] =
      prepare ["", "io"] [("S0", "error"), ("S2", "io.Closer"), ("S1", "io.Reader")] :=
  prepare_deterministic ["", "io"] [("S1", "io.Reader"), ("S2", "io.Closer"), ("S0", "error")]
    [("S0", "error"), ("S2", "io.Closer"), ("S1", "io.Reader")] (by decide) (by decide)

/-- C7 as stated fails: for a map in which `S1` and `S2` both carry the name `io.N`, the
two visiting orders give rows with different `Type` fields. -/
theorem prepare_order_dependent :
    ([("S1", "io.N"), ("S2", "io.N")] : GoMap).Perm [("S2", "io.N"), ("S1", "io.N")] ∧
    (GoMap.keys [("S1", "io.N"), ("S2", "io.N")]).Nodup ∧
    prepare ["io"] [("S1", "io.N"), ("S2", "io.N")] = [⟨"S2", "io.N"⟩, ⟨"S2", "io.N"⟩] ∧
    prepare ["io"] [("S2", "io.N"), ("S1", "io.N")] = [⟨"S1", "io.N"⟩, ⟨"S1", "io.N"⟩] := by
  decide!

/-! ## Maps as entry lists -/

theorem lookup_eq_some_iff_mem (m : GoMap) (hk : m.keys.Nodup) (k v : String) :
    m.lookup k = some v ↔ (k, v) ∈ m := by
  induction m with
  | nil => simp
  | cons e es ih =>
    obtain ⟨a, b⟩ := e
    simp only [GoMap.keys, List.map_cons, List.nodup_cons] at hk
    have ih' := ih hk.2
    by_cases h : k = a
    · subst h
      have hnot : (k, v) ∉ es := fun hm => hk.1 (List.mem_map.2 ⟨(k, v), hm, rfl⟩)
      simp [hnot, eq_comm]
    · have hb : (k == a) = false := by simpa using h
      simp [List.lookup_cons, hb, h, ih']

theorem lookup_perm {m₁ m₂ : GoMap} (hp : m₁.Perm m₂) (hk : m₁.keys.Nodup) (k : String) :
    m₁.lookup k = m₂.lookup k := by
  have hk₂ : m₂.keys.Nodup := (hp.map Prod.fst).nodup_iff.1 hk
  apply Option.ext
  intro v
  simp only [Option.mem_def]
  rw [lookup_eq_some_iff_mem m₁ hk, lookup_eq_some_iff_mem m₂ hk₂]
  exact hp.mem_iff

theorem perm_of_lookup_eq {m₁ m₂ : GoMap} (h₁ : m₁.keys.Nodup) (h₂ : m₂.keys.Nodup)
    (h : ∀ k, m₁.lookup k = m₂.lookup k) : m₁.Perm m₂ := by
  refine (List.perm_ext_iff_of_nodup (List.Nodup.of_map _ h₁) (List.Nodup.of_map _ h₂)).2 ?_
  rintro ⟨k, v⟩
  rw [← lookup_eq_some_iff_mem m₁ h₁, ← lookup_eq_some_iff_mem m₂ h₂, h k]

theorem lookup_isSome_iff_mem_keys (m : GoMap) (k : String) :
    (m.lookup k).isSome = true ↔ k ∈ m.keys := by
  simp only [List.lookup_isSome_iff, GoMap.keys, List.mem_map, beq_iff_eq]
  constructor
  · rintro ⟨e, he, rfl⟩
    exact ⟨e, he, rfl⟩
  · rintro ⟨e, he, rfl⟩
    exact ⟨e, he, rfl⟩

/-! ## Merging one scope into a table -/

theorem mergeStep_lookup (path : String) (t : GoMap) (e : String × String) (k : String) :
    (if (t.get? e.1).isSome then t else t.set e.1 (fullName path e.2)).lookup k =
      (t.lookup k).or (if k = e.1 then some (fullName path e.2) else none) := by
  by_cases h : (t.lookup e.1).isSome = true
  · simp only [GoMap.get?, h, if_true]
    by_cases hk : k = e.1
    · subst hk
      obtain ⟨v, hv⟩ := Option.isSome_iff_exists.1 h
      simp [hv]
    · simp [hk]
  · simp only [GoMap.get?, GoMap.set, h, if_false, Bool.false_eq_true, List.lookup_append]
    by_cases hk : k = e.1
    · simp [hk]
    · have hb : (k == e.1) = false := by simpa using hk
      simp [List.lookup_cons, hk, hb]

theorem mergeStep_keys (path : String) (t : GoMap) (e : String × String)
    (ht : t.keys.Nodup) :
    (if (t.get? e.1).isSome then t else t.set e.1 (fullName path e.2)).keys.Nodup := by
  by_cases h : (t.lookup e.1).isSome = true
  · simpa [GoMap.get?, h] using ht
  · have hnot : e.1 ∉ t.keys := fun hm => h ((lookup_isSome_iff_mem_keys t e.1).2 hm)
    simp only [GoMap.get?, GoMap.set, h, if_false, Bool.false_eq_true, GoMap.keys,
      List.map_append, List.map_cons, List.map_nil]
    refine List.Nodup.append ht (by simp) ?_
    intro x hx hx'
    simp only [List.mem_singleton] at hx'
    subst hx'
    exact hnot hx

theorem mergeInto_lookup (path : String) (loc t : GoMap) (k : String) :
    (mergeInto path t loc).lookup k = (t.lookup k).or ((loc.lookup k).map (fullName path)) := by
  induction loc generalizing t with
  | nil => simp [mergeInto, Option.or_none]
  | cons e rest ih =>
    have ih' := ih (if (t.get? e.1).isSome then t else t.set e.1 (fullName path e.2))
    simp only [mergeInto, List.foldl_cons] at ih' ⊢
    rw [ih', mergeStep_lookup, Option.or_assoc]
    congr 1
    obtain ⟨a, b⟩ := e
    by_cases hk : k = a
    · simp [hk]
    · have hb : (k == a) = false := by simpa using hk
      simp [List.lookup_cons, hk, hb]

theorem mergeInto_keys (path : String) (loc t : GoMap) (ht : t.keys.Nodup) :
    (mergeInto path t loc).keys.Nodup := by
  induction loc generalizing t with
  | nil => simpa [mergeInto] using ht
  | cons e rest ih =>
    simp only [mergeInto, List.foldl_cons]
    exact ih _ (mergeStep_keys path t e ht)

/-! ## The loop of `generate` -/

theorem generateLoop_internal {σ ε ω : Type} (env : Env σ ε ω) (path : String)
    (rest : List String) (i f : GoMap) (h : stringsContains path "internal" = true) :
    generateLoop env (path :: rest) i f = generateLoop env rest i f := by
  simp [generateLoop, h]

theorem generateLoop_error {σ ε ω : Type} (env : Env σ ε ω) (path : String)
    (rest : List String) (i f : GoMap) (err : ε)
    (h : stringsContains path "internal" = false) (hs : scopeOf env path = .error err) :
    generateLoop env (path :: rest) i f = .error err := by
  simp [generateLoop, h, hs]

theorem generateLoop_ok {σ ε ω : Type} (env : Env σ ε ω) (path : String)
    (rest : List String) (i f : GoMap) (scope : σ) (all : Bool)
    (h : stringsContains path "internal" = false) (hs : scopeOf env path = .ok (scope, all)) :
    generateLoop env (path :: rest) i f =
      generateLoop env rest
        (mergeInto path i (env.Range (env.FromScope scope all).1))
        (mergeInto path f (env.Range (env.FromScope scope all).2)) := by
  simp [generateLoop, h, hs]

theorem generateLoop_spec {σ ε ω : Type} (env : Env σ ε ω) (hwf : env.WF)
    (l : List String) (i f i' f' : GoMap) (hi : i.keys.Nodup) (hf : f.keys.Nodup)
    (h : generateLoop env l i f = .ok (i', f')) :
    (i'.keys.Nodup ∧ f'.keys.Nodup) ∧
    ∀ S, i'.lookup S = (i.lookup S).or (firstWriter env Prod.fst l S) ∧
      f'.lookup S = (f.lookup S).or (firstWriter env Prod.snd l S) := by
  induction l generalizing i f with
  | nil =>
    simp only [generateLoop, Except.ok.injEq, Prod.mk.injEq] at h
    obtain ⟨rfl, rfl⟩ := h
    exact ⟨⟨hi, hf⟩, fun S => by simp [firstWriter, Option.or_none]⟩
  | cons path rest ih =>
    by_cases hint : stringsContains path "internal" = true
    · rw [generateLoop_internal env path rest i f hint] at h
      have := ih i f hi hf h
      refine ⟨this.1, fun S => ?_⟩
      simpa [firstWriter, extracted, hint] using this.2 S
    · have hint' : stringsContains path "internal" = false := by simpa using hint
      cases hs : scopeOf env path with
      | error err =>
        rw [generateLoop_error env path rest i f err hint' hs] at h
        cases h
      | ok sa =>
        obtain ⟨scope, all⟩ := sa
        rw [generateLoop_ok env path rest i f scope all hint' hs] at h
        have hk := hwf.2 scope all
        have := ih _ _ (mergeInto_keys path _ i hi) (mergeInto_keys path _ f hf) h
        refine ⟨this.1, fun S => ?_⟩
        have h1 := lookup_perm (hwf.1 (env.FromScope scope all).1)
          (((hwf.1 _).map Prod.fst).nodup_iff.2 hk.1) S
        have h2 := lookup_perm (hwf.1 (env.FromScope scope all).2)
          (((hwf.1 _).map Prod.fst).nodup_iff.2 hk.2) S
        rw [(this.2 S).1, (this.2 S).2, mergeInto_lookup, mergeInto_lookup, h1, h2,
          Option.or_assoc, Option.or_assoc]
        constructor
        · congr 1
          cases hl : (env.FromScope scope all).1.lookup S <;>
            simp [firstWriter, extracted, hint', hs, GoMap.get?, hl]
        · congr 1
          cases hl : (env.FromScope scope all).2.lookup S <;>
            simp [firstWriter, extracted, hint', hs, GoMap.get?, hl]

theorem tables_spec {σ ε ω : Type} (env : Env σ ε ω) (hwf : env.WF) (pkgs : List String)
    (i f : GoMap) (h : tables env pkgs = .ok (i, f)) :
    (i.keys.Nodup ∧ f.keys.Nodup) ∧
    ∀ S, i.lookup S = firstWriter env Prod.fst (sortSort lessStr pkgs) S ∧
      f.lookup S = firstWriter env Prod.snd (sortSort lessStr pkgs) S := by
  have := generateLoop_spec env hwf (sortSort lessStr pkgs) [] [] i f
    (by simp [GoMap.keys]) (by simp [GoMap.keys]) h
  refine ⟨this.1, fun S => ?_⟩
  simpa using this.2 S

/-! ## First writer wins -/

theorem firstWriter_eq_none_iff {σ ε ω : Type} (env : Env σ ε ω)
    (sel : GoMap × GoMap → GoMap) (l : List String) (S : String) :
    firstWriter env sel l S = none ↔
      ∀ A ∈ l, ∀ m, extracted env A = some m → (sel m).get? S = none := by
  induction l with
  | nil => simp [firstWriter]
  | cons A rest ih =>
    cases he : extracted env A with
    | none => simp [firstWriter, he, ih]
    | some maps =>
      cases hl : (sel maps).get? S with
      | none =>
        simp only [firstWriter, he, hl, ih, List.forall_mem_cons]
        refine ⟨fun h => ⟨fun m hm => ?_, h⟩, fun h => h.2⟩
        cases hm
        exact hl
      | some n =>
        simp only [firstWriter, he, hl, List.forall_mem_cons]
        constructor
        · intro h
          cases h
        · intro h
          have := h.1 maps rfl
          rw [hl] at this
          cases this

theorem firstWriter_eq_some_iff {σ ε ω : Type} (env : Env σ ε ω)
    (sel : GoMap × GoMap → GoMap) (l : List String) (S q : String) :
    firstWriter env sel l S = some q ↔
      ∃ pre A post maps n, l = pre ++ A :: post ∧ extracted env A = some maps ∧
        (sel maps).get? S = some n ∧ q = fullName A n ∧
        ∀ B ∈ pre, ∀ m, extracted env B = some m → (sel m).get? S = none := by
  induction l with
  | nil => simp [firstWriter]
  | cons A rest ih =>
    have skip : (∀ m, extracted env A = some m → (sel m).get? S = none) →
        (firstWriter env sel rest S = some q ↔
          ∃ pre A' post maps n, A :: rest = pre ++ A' :: post ∧
            extracted env A' = some maps ∧ (sel maps).get? S = some n ∧
            q = fullName A' n ∧
            ∀ B ∈ pre, ∀ m, extracted env B = some m → (sel m).get? S = none) := by
      intro hA
      rw [ih]
      constructor
      · rintro ⟨pre, A', post, maps, n, hl, he, hn, hq, hpre⟩
        refine ⟨A :: pre, A', post, maps, n, by simp [hl], he, hn, hq, ?_⟩
        intro B hB m hm
        rcases List.mem_cons.1 hB with rfl | hB'
        · exact hA m hm
        · exact hpre B hB' m hm
      · rintro ⟨pre, A', post, maps, n, hl, he, hn, hq, hpre⟩
        cases pre with
        | nil =>
          simp only [List.nil_append, List.cons.injEq] at hl
          obtain ⟨rfl, -⟩ := hl
          rw [hA maps he] at hn
          cases hn
        | cons B pre' =>
          simp only [List.cons_append, List.cons.injEq] at hl
          exact ⟨pre', A', post, maps, n, hl.2, he, hn, hq,
            fun B' hB' m hm => hpre B' (List.mem_cons_of_mem _ hB') m hm⟩
    cases he : extracted env A with
    | none =>
      have := skip (by simp [he])
      simpa [firstWriter, he] using this
    | some maps =>
      cases hl : (sel maps).get? S with
      | none =>
        have := skip (by
          intro m hm
          rw [he] at hm
          cases hm
          exact hl)
        simpa [firstWriter, he, hl] using this
      | some n =>
        simp only [firstWriter, he, hl, Option.some.injEq]
        constructor
        · intro hq
          exact ⟨[], A, rest, maps, n, rfl, he, hl, hq.symm, by simp⟩
        · rintro ⟨pre, A', post, maps', n', hl', he', hn', hq', hpre⟩
          cases pre with
          | nil =>
            simp only [List.nil_append, List.cons.injEq] at hl'
            obtain ⟨rfl, -⟩ := hl'
            rw [he] at he'
            cases he'
            rw [hl] at hn'
            cases hn'
            exact hq'.symm
          | cons B pre' =>
            simp only [List.cons_append, List.cons.injEq] at hl'
            obtain ⟨rfl, -⟩ := hl'
            have := hpre A (List.mem_cons_self _ _) maps he
            rw [hl] at this
            cases this

theorem demoEnv_WF : demoEnv.WF := by
  refine ⟨fun m => List.reverse_perm m, fun s all => ?_⟩
  cases s <;> cases all <;> exact ⟨by decide, by decide⟩

/-- C1: when the loop of `generate` completes, the interface table maps a signature `S`
to `q` exactly when the sorted scope list splits as `pre ++ A :: post` where `A` is not
skipped, its extracted interface map gives `S` the name `n`, `q = fullName(A, n)`, and
no non-skipped scope of `pre` exposes `S`; `S` is absent exactly when no non-skipped
scope exposes it. The function table satisfies the same with the function maps. -/
theorem generate_first_writer_wins {σ ε ω : Type} (env : Env σ ε ω) (hwf : env.WF)
    (pkgs : List String) (ifaces funcs : GoMap)
    (h : tables env pkgs = .ok (ifaces, funcs)) :
    (∀ S q, ifaces.get? S = some q ↔
      ∃ pre A post maps n, sortSort lessStr pkgs = pre ++ A :: post ∧
        extracted env A = some maps ∧ maps.1.get? S = some n ∧ q = fullName A n ∧
        ∀ B ∈ pre, ∀ m, extracted env B = some m → m.1.get? S = none) ∧
    (∀ S, ifaces.get? S = none ↔
      ∀ A ∈ pkgs, ∀ m, extracted env A = some m → m.1.get? S = none) ∧
    (∀ S q, funcs.get? S = some q ↔
      ∃ pre A post maps n, sortSort lessStr pkgs = pre ++ A :: post ∧
        extracted env A = some maps ∧ maps.2.get? S = some n ∧ q = fullName A n ∧
        ∀ B ∈ pre, ∀ m, extracted env B = some m → m.2.get? S = none) ∧
    (∀ S, funcs.get? S = none ↔
      ∀ A ∈ pkgs, ∀ m, extracted env A = some m → m.2.get? S = none) := by
  have hs := (tables_spec env hwf pkgs ifaces funcs h).2
  refine ⟨fun S q => ?_, fun S => ?_, fun S q => ?_, fun S => ?_⟩
  · rw [GoMap.get?, (hs S).1]
    exact firstWriter_eq_some_iff env Prod.fst _ S q
  · rw [GoMap.get?, (hs S).1, firstWriter_eq_none_iff]
    exact ⟨fun hh A hA => hh A (mem_sortSort.2 hA), fun hh A hA => hh A (mem_sortSort.1 hA)⟩
  · rw [GoMap.get?, (hs S).2]
    exact firstWriter_eq_some_iff env Prod.snd _ S q
  · rw [GoMap.get?, (hs S).2, firstWriter_eq_none_iff]
    exact ⟨fun hh A hA => hh A (mem_sortSort.2 hA), fun hh A hA => hh A (mem_sortSort.1 hA)⟩

/-- C1 on the scenario of the specification: with scopes `""`, `bytes`, `io`,
`io/internal`, where `io` names `S1` `Reader` and `bytes` names it `ByteReader`, the
interface table resolves `S1` to `io.Reader`, and `S9`, exposed by `io/internal` only,
is absent. -/
theorem generate_first_writer_wins_witness :
    demoEnv.WF ∧
    tables demoEnv demoPkgs =
      .ok ([("S0", "error"), ("S2", "io.Closer"), ("S1", "io.Reader"),
          ("S3", "bytes.Scanner")],
        [("F1", "io.WalkFunc"), ("F2", "bytes.MapFunc")]) ∧
    GoMap.get? [("S0", "error"), ("S2", "io.Closer"), ("S1", "io.Reader"),
      ("S3", "bytes.Scanner")] "S1" = some "io.Reader" ∧
    (∃ pre A post maps n, sortSort lessStr demoPkgs = pre ++ A :: post ∧
        extracted demoEnv A = some maps ∧ maps.1.get? "S1" = some n ∧
        "io.Reader" = fullName A n ∧
        ∀ B ∈ pre, ∀ m, extracted demoEnv B = some m → m.1.get? "S1" = none) ∧
    (∀ A ∈ demoPkgs, ∀ m, extracted demoEnv A = some m → m.1.get? "S9" = none) :=
  ⟨demoEnv_WF, rfl, by decide,
    ((generate_first_writer_wins demoEnv demoEnv_WF demoPkgs _ _ rfl).1
      "S1" "io.Reader").1 (by decide),
    ((generate_first_writer_wins demoEnv demoEnv_WF demoPkgs _ _ rfl).2.1 "S9").1
      (by decide)⟩

/-! ## Failing fast -/

theorem scopeOf_error_iff {σ ε ω : Type} (env : Env σ ε ω) (path : String) (err : ε) :
    scopeOf env path = .error err ↔ path ≠ "" ∧ env.DefaultImport path = .error err := by
  unfold scopeOf
  by_cases h : path = ""
  · simp [h]
  · cases hd : env.DefaultImport path <;> simp [h]

theorem generateLoop_firstError {σ ε ω : Type} (env : Env σ ε ω) (l : List String)
    (i f : GoMap) :
    (∀ err, firstError env l = some err → generateLoop env l i f = .error err) ∧
    (firstError env l = none → ∃ t, generateLoop env l i f = .ok t) := by
  induction l generalizing i f with
  | nil => simp [firstError, generateLoop]
  | cons path rest ih =>
    by_cases hint : stringsContains path "internal" = true
    · simpa [firstError, generateLoop, hint] using ih i f
    · have hint' : stringsContains path "internal" = false := by simpa using hint
      cases hs : scopeOf env path with
      | error e => simp [firstError, generateLoop, hint', hs]
      | ok sa =>
        obtain ⟨scope, all⟩ := sa
        simpa [firstError, generateLoop, hint', hs] using ih _ _

theorem firstError_of_split {σ ε ω : Type} (env : Env σ ε ω) (pre : List String)
    (p : String) (post : List String) (err : ε)
    (hpre : ∀ q ∈ pre, ¬ failsToLoad env q) (hp : p ≠ "")
    (hint : stringsContains p "internal" = false) (hd : env.DefaultImport p = .error err) :
    firstError env (pre ++ p :: post) = some err := by
  induction pre with
  | nil =>
    have := (scopeOf_error_iff env p err).2 ⟨hp, hd⟩
    simp [firstError, hint, this]
  | cons q qs ih =>
    have ih' := ih (fun x hx => hpre x (List.mem_cons_of_mem _ hx))
    have hq := hpre q (List.mem_cons_self _ _)
    by_cases hqi : stringsContains q "internal" = true
    · simpa [firstError, hqi] using ih'
    · have hqi' : stringsContains q "internal" = false := by simpa using hqi
      cases hs : scopeOf env q with
      | error e =>
        exact absurd ⟨((scopeOf_error_iff env q e).1 hs).1, hqi',
          e, ((scopeOf_error_iff env q e).1 hs).2⟩ hq
      | ok sa => simpa [firstError, hqi', hs] using ih'

theorem firstError_isSome_iff {σ ε ω : Type} (env : Env σ ε ω) (l : List String) :
    (∃ err, firstError env l = some err) ↔ ∃ p ∈ l, failsToLoad env p := by
  induction l with
  | nil => simp [firstError]
  | cons q qs ih =>
    by_cases hqi : stringsContains q "internal" = true
    · have hq : ¬ failsToLoad env q := fun h => by
        rw [h.2.1] at hqi
        exact Bool.false_ne_true hqi
      simp only [firstError, hqi, if_true, ih, List.exists_mem_cons_iff, hq, false_or]
    · have hqi' : stringsContains q "internal" = false := by simpa using hqi
      cases hs : scopeOf env q with
      | error e =>
        have hf : failsToLoad env q :=
          ⟨((scopeOf_error_iff env q e).1 hs).1, hqi', e, ((scopeOf_error_iff env q e).1 hs).2⟩
        simp only [firstError, hqi', hs, List.exists_mem_cons_iff]
        exact ⟨fun _ => Or.inl hf, fun _ => ⟨e, by simp⟩⟩
      | ok sa =>
        have hq : ¬ failsToLoad env q := fun h => by
          obtain ⟨e, he⟩ := h.2.2
          have := (scopeOf_error_iff env q e).2 ⟨h.1, he⟩
          rw [hs] at this
          cases this
        simp only [firstError, hqi', hs, List.exists_mem_cons_iff, hq, false_or]
        simpa using ih

theorem generateLoop_error_iff {σ ε ω : Type} (env : Env σ ε ω) (l : List String)
    (i f : GoMap) (err : ε) :
    generateLoop env l i f = .error err ↔ firstError env l = some err := by
  have h := generateLoop_firstError env l i f
  constructor
  · intro hg
    cases hfe : firstError env l with
    | none =>
      obtain ⟨t, ht⟩ := h.2 hfe
      rw [ht] at hg
      cases hg
    | some e =>
      have := h.1 e hfe
      rw [this] at hg
      cases hg
      rfl
  · exact h.1 err

theorem generateLoop_loader_congr {σ ε ω : Type} (env : Env σ ε ω)
    (load : String → Except ε σ)
    (hl : ∀ p, p ≠ "" → stringsContains p "internal" = false → load p = env.DefaultImport p)
    (l : List String) (i f : GoMap) :
    generateLoop { env with DefaultImport := load } l i f = generateLoop env l i f := by
  induction l generalizing i f with
  | nil => rfl
  | cons path rest ih =>
    by_cases hint : stringsContains path "internal" = true
    · simpa [generateLoop, hint] using ih i f
    · have hint' : stringsContains path "internal" = false := by simpa using hint
      have hs : scopeOf { env with DefaultImport := load } path = scopeOf env path := by
        unfold scopeOf
        by_cases hp : path = ""
        · simp [hp]
        · simp [hp, hl path hp hint']
      simp only [generateLoop, hint', hs]
      cases scopeOf env path with
      | error e => rfl
      | ok sa => exact ih _ _

theorem templateData_error_iff {σ ε ω : Type} (env : Env σ ε ω) (pkgs : List String)
    (err : ε) :
    templateData env pkgs = .error err ↔ firstError env (sortSort lessStr pkgs) = some err := by
  rw [← generateLoop_error_iff env _ [] [] err]
  unfold templateData tables
  cases generateLoop env (sortSort lessStr pkgs) [] [] with
  | error e => simp
  | ok t => simp

/-- C8, as amended: `generate` fails in its loop iff some non-empty path not containing
`"internal"` fails to load; it then returns the error of the first such path in the
scope ordering and leaves the writer untouched; when all loads succeed it returns what
executing the template returns; and its outcome does not depend on what the loader
would do with the empty path or a path containing `"internal"`. -/
theorem generate_fail_fast {σ ε ω : Type} (env : Env σ ε ω) (pkgs : List String) (w : ω) :
    ((∃ err, templateData env pkgs = .error err) ↔ ∃ p ∈ pkgs, failsToLoad env p) ∧
    (∀ pre p post err, sortSort lessStr pkgs = pre ++ p :: post →
      (∀ q ∈ pre, ¬ failsToLoad env q) → p ≠ "" → stringsContains p "internal" = false →
      env.DefaultImport p = .error err →
      generate env pkgs w = ⟨sortSort lessStr pkgs, w, some err⟩) ∧
    (∀ d, templateData env pkgs = .ok d →
      generate env pkgs w =
        ⟨sortSort lessStr pkgs, (env.Execute w d).1, (env.Execute w d).2⟩) ∧
    (∀ load : String → Except ε σ,
      (∀ p, p ≠ "" → stringsContains p "internal" = false → load p = env.DefaultImport p) →
      generate { env with DefaultImport := load } pkgs w = generate env pkgs w) := by
  refine ⟨?_, ?_, ?_, ?_⟩
  · simp only [templateData_error_iff, firstError_isSome_iff, mem_sortSort]
  · intro pre p post err hsplit hpre hp hint hd
    have : templateData env pkgs = .error err := by
      rw [templateData_error_iff, hsplit]
      exact firstError_of_split env pre p post err hpre hp hint hd
    simp [generate, this]
  · intro d hd
    simp [generate, hd]
  · intro load hl
    have ht : tables { env with DefaultImport := load } pkgs = tables env pkgs :=
      generateLoop_loader_congr env load hl _ [] []
    have hd : templateData { env with DefaultImport := load } pkgs = templateData env pkgs := by
      unfold templateData
      rw [ht]
    unfold generate
    rw [hd]

/-- C8 on the scenario with `os`, which cannot be imported, added: `generate` returns
the import error of `os` and nothing is written. -/
theorem generate_fail_fast_witness :
    sortSort lessStr ["os", "io/internal", "io", ""] = ["", "io", "os", "io/internal"] ∧
    generate demoEnv ["os", "io/internal", "io", ""] [] =
      ⟨sortSort lessStr ["os", "io/internal", "io", ""], [],
        some "can't find import: os"⟩ :=
  ⟨by decide!, (generate_fail_fast demoEnv ["os", "io/internal", "io", ""] []).2.1
    ["", "io"] "os" ["io/internal"] "can't find import: os" (by decide!)
    (by
      intro q hq
      rcases List.mem_cons.1 hq with rfl | hq
      · exact fun h => h.1 rfl
      · rw [List.mem_singleton] at hq
        subst hq
        rintro ⟨-, -, e, he⟩
        cases he)
    (by decide) (by decide) rfl⟩

/-- C8 as stated fails: every scope loads, yet `generate` returns the error of the
template execution. -/
theorem generate_error_without_load_failure :
    (generate brokenWriterEnv ["", "io"] []).err = some "write: file already closed" ∧
    ¬ ∃ p ∈ ["", "io"], failsToLoad brokenWriterEnv p := by
  refine ⟨by decide!, ?_⟩
  rintro ⟨p, hp, hf⟩
  rcases List.mem_cons.1 hp with rfl | hp
  · exact hf.1 rfl
  · rw [List.mem_singleton] at hp
    subst hp
    obtain ⟨-, -, e, he⟩ := hf
    cases he

/-! ## The qualified names of a table -/

theorem append_sep_inj_left {sep : Char} (x x' y y' : List Char) (hx : sep ∉ x)
    (hx' : sep ∉ x') (h : x ++ sep :: y = x' ++ sep :: y') : x = x' ∧ y = y' := by
  induction x generalizing x' with
  | nil =>
    cases x' with
    | nil => simpa using h
    | cons c t =>
      simp only [List.nil_append, List.cons_append, List.cons.injEq] at h
      exact absurd (by simp [h.1]) hx'
  | cons c t ih =>
    cases x' with
    | nil =>
      simp only [List.nil_append, List.cons_append, List.cons.injEq] at h
      exact absurd (by simp [h.1]) hx
    | cons c' t' =>
      simp only [List.cons_append, List.cons.injEq] at h
      have := ih t' (fun hm => hx (List.mem_cons_of_mem _ hm))
        (fun hm => hx' (List.mem_cons_of_mem _ hm)) h.2
      exact ⟨by rw [h.1, this.1], this.2⟩

theorem append_sep_inj_right {sep : Char} (a b n m : List Char) (hn : sep ∉ n)
    (hm : sep ∉ m) (h : a ++ sep :: n = b ++ sep :: m) : a = b ∧ n = m := by
  have h' : n.reverse ++ sep :: a.reverse = m.reverse ++ sep :: b.reverse := by
    have := congrArg List.reverse h
    simpa using this
  have := append_sep_inj_left n.reverse m.reverse a.reverse b.reverse
    (by simpa using hn) (by simpa using hm) h'
  exact ⟨List.reverse_injective this.2, List.reverse_injective this.1⟩

theorem fullName_inj (A B n m : String) (hn : '.' ∉ n.data) (hm : '.' ∉ m.data)
    (h : fullName A n = fullName B m) : A = B ∧ n = m := by
  have e : ∀ P x : String, (P ++ "." ++ x).data = P.data ++ '.' :: x.data := by
    intro P x
    simp [String.data_append]
  unfold fullName at h
  by_cases hA : A = "" <;> by_cases hB : B = ""
  · rw [if_pos hA, if_pos hB] at h
    exact ⟨hA.trans hB.symm, h⟩
  · rw [if_pos hA, if_neg hB] at h
    have := congrArg String.data h
    rw [e] at this
    exact absurd (by rw [this]; simp) hn
  · rw [if_neg hA, if_pos hB] at h
    have := congrArg String.data h
    rw [e] at this
    exact absurd (by rw [← this]; simp) hm
  · rw [if_neg hA, if_neg hB] at h
    have := congrArg String.data h
    rw [e, e] at this
    have := append_sep_inj_right A.data B.data n.data m.data hn hm this
    exact ⟨String.ext this.1, String.ext this.2⟩

theorem extracted_some {σ ε ω : Type} (env : Env σ ε ω) (A : String) (maps : GoMap × GoMap)
    (h : extracted env A = some maps) :
    notInternal A = true ∧ ∃ s all, maps = env.FromScope s all ∧
      (A = "" → s = env.Universe ∧ all = true) := by
  unfold extracted at h
  split at h
  · cases h
  · rename_i hint
    split at h
    · cases h
    · rename_i scope all hs
      simp only [Option.some.injEq] at h
      refine ⟨by simpa [notInternal] using hint, scope, all, h.symm, ?_⟩
      intro hA
      subst hA
      simp only [scopeOf, ne_eq, not_true_eq_false, if_false, Except.ok.injEq,
        Prod.mk.injEq] at hs
      exact ⟨hs.1.symm, hs.2.symm⟩

theorem firstWriter_eq_map_firstExposing {σ ε ω : Type} (env : Env σ ε ω)
    (sel : GoMap × GoMap → GoMap) (l : List String) (S : String) :
    firstWriter env sel l S =
      (firstExposing env sel l S).map (fun an => fullName an.1 an.2) := by
  induction l with
  | nil => rfl
  | cons A rest ih =>
    cases he : extracted env A with
    | none => simp [firstWriter, firstExposing, he, ih]
    | some maps =>
      cases hl : (sel maps).get? S with
      | none => simp [firstWriter, firstExposing, he, hl, ih]
      | some n => simp [firstWriter, firstExposing, he, hl]

theorem firstExposing_some {σ ε ω : Type} (env : Env σ ε ω)
    (sel : GoMap × GoMap → GoMap) (l : List String) (S A n : String)
    (h : firstExposing env sel l S = some (A, n)) :
    A ∈ l ∧ ∃ maps, extracted env A = some maps ∧ (sel maps).get? S = some n := by
  induction l with
  | nil => simp [firstExposing] at h
  | cons B rest ih =>
    cases he : extracted env B with
    | none =>
      simp only [firstExposing, he] at h
      exact ⟨List.mem_cons_of_mem _ (ih h).1, (ih h).2⟩
    | some maps =>
      cases hl : (sel maps).get? S with
      | none =>
        simp only [firstExposing, he, hl] at h
        exact ⟨List.mem_cons_of_mem _ (ih h).1, (ih h).2⟩
      | some n' =>
        simp only [firstExposing, he, hl, Option.some.injEq, Prod.mk.injEq] at h
        obtain ⟨rfl, rfl⟩ := h
        exact ⟨List.mem_cons_self _ _, maps, he, hl⟩

theorem entry_firstExposing {σ ε ω : Type} (env : Env σ ε ω)
    (sel : GoMap × GoMap → GoMap) (l : List String) (t : GoMap) (ht : t.keys.Nodup)
    (hs : ∀ S, t.lookup S = firstWriter env sel l S) (e : String × String) (he : e ∈ t) :
    ∃ A n, firstExposing env sel l e.1 = some (A, n) ∧ e.2 = fullName A n := by
  have hl := (lookup_eq_some_iff_mem t ht e.1 e.2).2 he
  rw [hs, firstWriter_eq_map_firstExposing] at hl
  cases hfe : firstExposing env sel l e.1 with
  | none =>
    rw [hfe] at hl
    cases hl
  | some an =>
    rw [hfe] at hl
    simp only [Option.map_some', Option.some.injEq] at hl
    exact ⟨an.1, an.2, rfl, hl.symm⟩

theorem table_values_nodup {σ ε ω : Type} (env : Env σ ε ω)
    (sel : GoMap × GoMap → GoMap)
    (hk : ∀ s all, (sel (env.FromScope s all)).keys.Nodup)
    (hd : ∀ s all, ∀ e ∈ sel (env.FromScope s all), '.' ∉ e.2.data)
    (hv : ∀ s all, ((sel (env.FromScope s all)).map Prod.snd).Nodup)
    (l : List String) (t : GoMap) (ht : t.keys.Nodup)
    (hs : ∀ S, t.lookup S = firstWriter env sel l S) : (t.map Prod.snd).Nodup := by
  refine List.Nodup.map_on ?_ (List.Nodup.of_map _ ht)
  intro e₁ he₁ e₂ he₂ heq
  obtain ⟨A₁, n₁, hf₁, hq₁⟩ := entry_firstExposing env sel l t ht hs e₁ he₁
  obtain ⟨A₂, n₂, hf₂, hq₂⟩ := entry_firstExposing env sel l t ht hs e₂ he₂
  obtain ⟨-, m₁, hm₁, hg₁⟩ := firstExposing_some env sel l e₁.1 A₁ n₁ hf₁
  obtain ⟨-, m₂, hm₂, hg₂⟩ := firstExposing_some env sel l e₂.1 A₂ n₂ hf₂
  obtain ⟨-, s₁, all₁, rfl, -⟩ := extracted_some env A₁ m₁ hm₁
  obtain ⟨-, s₂, all₂, rfl, -⟩ := extracted_some env A₂ m₂ hm₂
  have hmem₁ := (lookup_eq_some_iff_mem _ (hk s₁ all₁) e₁.1 n₁).1 hg₁
  have hmem₂ := (lookup_eq_some_iff_mem _ (hk s₂ all₂) e₂.1 n₂).1 hg₂
  have hinj := fullName_inj A₁ A₂ n₁ n₂ (hd s₁ all₁ _ hmem₁) (hd s₂ all₂ _ hmem₂)
    (by rw [← hq₁, ← hq₂]; exact heq)
  obtain ⟨hA, hn⟩ := hinj
  subst hA
  subst hn
  rw [hm₁] at hm₂
  simp only [Option.some.injEq] at hm₂
  rw [← hm₂] at hmem₂
  have := List.inj_on_of_nodup_map (hv s₁ all₁) hmem₁ hmem₂ rfl
  have hfst : e₁.1 = e₂.1 := by simpa using congrArg Prod.fst this
  exact Prod.ext hfst heq

theorem tables_values_nodup {σ ε ω : Type} (env : Env σ ε ω) (hwf : env.WF)
    (hid : env.Identifiers) (hone : env.OneTypePerName) (pkgs : List String)
    (i f : GoMap) (h : tables env pkgs = .ok (i, f)) :
    (i.map Prod.snd).Nodup ∧ (f.map Prod.snd).Nodup := by
  have hs := tables_spec env hwf pkgs i f h
  exact ⟨table_values_nodup env Prod.fst (fun s all => (hwf.2 s all).1)
      (fun s all => (hid s all).1) (fun s all => (hone s all).1) _ i hs.1.1
      (fun S => (hs.2 S).1),
    table_values_nodup env Prod.snd (fun s all => (hwf.2 s all).2)
      (fun s all => (hid s all).2) (fun s all => (hone s all).2) _ f hs.1.2
      (fun S => (hs.2 S).2)⟩

theorem demoEnv_Identifiers : demoEnv.Identifiers := by
  intro s all
  cases s <;> cases all <;> exact ⟨by decide, by decide⟩

theorem demoEnv_OneTypePerName : demoEnv.OneTypePerName := by
  intro s all
  cases s <;> cases all <;> exact ⟨by decide, by decide⟩

/-! ## Independence of the visiting order -/

theorem firstError_range {σ ε ω : Type} (env : Env σ ε ω) (r : GoMap → GoMap)
    (l : List String) : firstError { env with Range := r } l = firstError env l := by
  induction l with
  | nil => rfl
  | cons p rest ih =>
    have hs : scopeOf { env with Range := r } p = scopeOf env p := rfl
    simp only [firstError, hs, ih]

theorem firstWriter_range {σ ε ω : Type} (env : Env σ ε ω) (r : GoMap → GoMap)
    (sel : GoMap × GoMap → GoMap) (l : List String) (S : String) :
    firstWriter { env with Range := r } sel l S = firstWriter env sel l S := by
  induction l with
  | nil => rfl
  | cons p rest ih =>
    have hs : extracted { env with Range := r } p = extracted env p := rfl
    simp only [firstWriter, hs, ih]

theorem tables_range {σ ε ω : Type} (env : Env σ ε ω) (hwf : env.WF) (r : GoMap → GoMap)
    (hr : ∀ m, (r m).Perm m) (pkgs : List String) (i f : GoMap)
    (h : tables env pkgs = .ok (i, f)) :
    ∃ i' f', tables { env with Range := r } pkgs = .ok (i', f') ∧ i.Perm i' ∧ f.Perm f' := by
  have hwf' : Env.WF { env with Range := r } := ⟨hr, hwf.2⟩
  have hnone : firstError env (sortSort lessStr pkgs) = none := by
    cases hfe : firstError env (sortSort lessStr pkgs) with
    | none => rfl
    | some e =>
      have := (generateLoop_firstError env (sortSort lessStr pkgs) [] []).1 e hfe
      unfold tables at h
      rw [this] at h
      cases h
  obtain ⟨⟨i', f'⟩, ht⟩ := (generateLoop_firstError { env with Range := r }
    (sortSort lessStr pkgs) [] []).2 ((firstError_range env r _).trans hnone)
  have h₁ := tables_spec env hwf pkgs i f h
  have h₂ := tables_spec { env with Range := r } hwf' pkgs i' f' ht
  refine ⟨i', f', ht, ?_, ?_⟩
  · apply perm_of_lookup_eq h₁.1.1 h₂.1.1
    intro S
    rw [(h₁.2 S).1, (h₂.2 S).1]
    exact (firstWriter_range env r Prod.fst _ S).symm
  · apply perm_of_lookup_eq h₁.1.2 h₂.1.2
    intro S
    rw [(h₁.2 S).2, (h₂.2 S).2]
    exact (firstWriter_range env r Prod.snd _ S).symm

theorem tables_error_range {σ ε ω : Type} (env : Env σ ε ω) (r : GoMap → GoMap)
    (pkgs : List String) (err : ε) (h : tables env pkgs = .error err) :
    tables { env with Range := r } pkgs = .error err := by
  unfold tables at h ⊢
  rw [generateLoop_error_iff] at h ⊢
  exact (firstError_range env r _).trans h

theorem templateData_range_of_nodup {σ ε ω : Type} (env : Env σ ε ω) (hwf : env.WF)
    (r : GoMap → GoMap) (hr : ∀ m, (r m).Perm m) (pkgs : List String) (i f : GoMap)
    (h : tables env pkgs = .ok (i, f)) (hvi : (i.map Prod.snd).Nodup)
    (hvf : (f.map Prod.snd).Nodup) :
    templateData { env with Range := r } pkgs = templateData env pkgs := by
  obtain ⟨i', f', ht, hi, hf⟩ := tables_range env hwf r hr pkgs i f h
  have key : ∀ a b : GoMap, a.Perm b → (a.map Prod.snd).Nodup →
      prepare (sortSort lessStr pkgs) a = prepare (sortSort lessStr pkgs) b := by
    intro a b hab hva
    rw [prepare_eq_flatMap, prepare_eq_flatMap]
    congr 1
    funext p
    exact prepareGroup_congr_of_perm a b hab hva p
  have e₁ : prepare (sortSort lessStr pkgs) (r i') =
      prepare (sortSort lessStr pkgs) (env.Range i) :=
    (key _ _ (((hwf.1 i).trans hi).trans (hr i').symm)
      (((hwf.1 i).map Prod.snd).nodup_iff.2 hvi)).symm
  have e₂ : prepare (sortSort lessStr pkgs) (r f') =
      prepare (sortSort lessStr pkgs) (env.Range f) :=
    (key _ _ (((hwf.1 f).trans hf).trans (hr f').symm)
      (((hwf.1 f).map Prod.snd).nodup_iff.2 hvf)).symm
  simp only [templateData, ht, h, e₁, e₂]

theorem templateData_range {σ ε ω : Type} (env : Env σ ε ω) (hwf : env.WF)
    (hid : env.Identifiers) (hone : env.OneTypePerName)
    (r : GoMap → GoMap) (hr : ∀ m, (r m).Perm m) (pkgs : List String) :
    templateData { env with Range := r } pkgs = templateData env pkgs := by
  cases h : tables env pkgs with
  | error err =>
    have h' := tables_error_range env r pkgs err h
    simp only [templateData, h, h']
  | ok t =>
    obtain ⟨i, f⟩ := t
    have hv := tables_values_nodup env hwf hid hone pkgs i f h
    exact templateData_range_of_nodup env hwf r hr pkgs i f h hv.1 hv.2

/-- C10: for a fixed scope list, loader and extractor (whose maps have distinct keys
and, as Go declarations do, dot-free names with one signature each), visiting the maps
in any other order leaves the outcome unchanged: the loop returns the same error, or
two tables with the same entries (the same value for every signature), and the value
handed to the template, with its two grouped outputs, and the result of `generate` are
identical. -/
theorem generate_deterministic {σ ε ω : Type} (env : Env σ ε ω) (hwf : env.WF)
    (hid : env.Identifiers) (hone : env.OneTypePerName)
    (r : GoMap → GoMap) (hr : ∀ m, (r m).Perm m) (pkgs : List String) :
    (∀ err, tables env pkgs = .error err →
      tables { env with Range := r } pkgs = .error err) ∧
    (∀ i f, tables env pkgs = .ok (i, f) →
      ∃ i' f', tables { env with Range := r } pkgs = .ok (i', f') ∧
        i.Perm i' ∧ f.Perm f' ∧
        (∀ S, i.get? S = i'.get? S) ∧ (∀ S, f.get? S = f'.get? S)) ∧
    templateData { env with Range := r } pkgs = templateData env pkgs ∧
    (∀ w : ω, generate { env with Range := r } pkgs w = generate env pkgs w) := by
  have hd := templateData_range env hwf hid hone r hr pkgs
  refine ⟨fun err h => tables_error_range env r pkgs err h, ?_, hd, ?_⟩
  · intro i f h
    obtain ⟨i', f', ht, hi, hf⟩ := tables_range env hwf r hr pkgs i f h
    have hk := (tables_spec env hwf pkgs i f h).1
    exact ⟨i', f', ht, hi, hf, fun S => lookup_perm hi hk.1 S,
      fun S => lookup_perm hf hk.2 S⟩
  · intro w
    unfold generate
    rw [hd]

theorem s2First_perm (m : GoMap) : (s2First m).Perm m := by
  unfold s2First
  split
  · exact List.reverse_perm m
  · exact List.Perm.refl m

/-- C10 on the scenario of the specification, with a second visiting order. -/
theorem generate_deterministic_witness :
    demoEnv.WF ∧ demoEnv.Identifiers ∧ demoEnv.OneTypePerName ∧
    (∀ m, (s2First m).Perm m) ∧
    templateData { demoEnv with Range := s2First } demoPkgs =
      templateData demoEnv demoPkgs ∧
    generate { demoEnv with Range := s2First } demoPkgs [] = generate demoEnv demoPkgs [] :=
  ⟨demoEnv_WF, demoEnv_Identifiers, demoEnv_OneTypePerName, s2First_perm,
    (generate_deterministic demoEnv demoEnv_WF demoEnv_Identifiers demoEnv_OneTypePerName
      s2First s2First_perm demoPkgs).2.2.1,
    (generate_deterministic demoEnv demoEnv_WF demoEnv_Identifiers demoEnv_OneTypePerName
      s2First s2First_perm demoPkgs).2.2.2 []⟩

/-! ## Private scopes -/

theorem hasSub_nil_left (l : List Char) : hasSub [] l = true := by
  cases l <;> simp [hasSub]

theorem hasSub_append (sub l r : List Char) (h : hasSub sub l = true) :
    hasSub sub (l ++ r) = true := by
  induction l with
  | nil =>
    have hs : sub = [] := by simpa [hasSub] using h
    subst hs
    exact hasSub_nil_left _
  | cons c cs ih =>
    simp only [hasSub, Bool.or_eq_true, List.isPrefixOf_iff_prefix] at h
    simp only [List.cons_append, hasSub, Bool.or_eq_true, List.isPrefixOf_iff_prefix]
    rcases h with h | h
    · exact Or.inl (h.trans (List.prefix_append (c :: cs) r))
    · exact Or.inr (ih h)

theorem splitChars_head_append (sep : Char) (a n : List Char) :
    (splitChars sep (a ++ sep :: n)).headD [] = (splitChars sep a).headD [] := by
  induction a with
  | nil => simp [splitChars]
  | cons c cs ih =>
    by_cases hc : c = sep
    · simp [splitChars, hc]
    · have h₁ := splitChars_ne_nil sep (cs ++ sep :: n)
      have h₂ := splitChars_ne_nil sep cs
      cases e₁ : splitChars sep (cs ++ sep :: n) with
      | nil => exact absurd e₁ h₁
      | cons x xs =>
        cases e₂ : splitChars sep cs with
        | nil => exact absurd e₂ h₂
        | cons y ys =>
          rw [e₁, e₂] at ih
          simp only [List.headD_cons] at ih
          simp [splitChars, hc, e₁, e₂, ih]

theorem splitChars_head_prefix (sep : Char) (a : List Char) :
    ∃ suf, a = (splitChars sep a).headD [] ++ suf := by
  induction a with
  | nil => exact ⟨[], by simp [splitChars]⟩
  | cons c cs ih =>
    by_cases hc : c = sep
    · exact ⟨c :: cs, by simp [splitChars, hc]⟩
    · obtain ⟨suf, hsuf⟩ := ih
      cases e : splitChars sep cs with
      | nil => exact absurd e (splitChars_ne_nil sep cs)
      | cons y ys =>
        rw [e] at hsuf
        simp only [List.headD_cons] at hsuf
        refine ⟨suf, ?_⟩
        simp only [splitChars, hc, if_false, e, List.headD_cons, List.cons_append]
        rw [← hsuf]

theorem pkgName_fullName_notInternal (A n : String) (hA : notInternal A = true)
    (hn : A = "" → '.' ∉ n.data) : notInternal (pkgName (fullName A n)) = true := by
  unfold fullName
  by_cases h : A = ""
  · rw [if_pos h, pkgName_of_no_dot _ (hn h)]
    decide
  · rw [if_neg h]
    have e : (A ++ "." ++ n).data = A.data ++ '.' :: n.data := by
      simp [String.data_append]
    unfold pkgName stringsSplit
    simp only [e]
    split
    · decide
    · obtain ⟨suf, hsuf⟩ := splitChars_head_prefix '.' A.data
      cases e₁ : splitChars '.' (A.data ++ '.' :: n.data) with
      | nil => exact absurd e₁ (splitChars_ne_nil _ _)
      | cons x xs =>
        have hx := splitChars_head_append '.' A.data n.data
        rw [e₁] at hx
        simp only [List.headD_cons] at hx
        simp only [List.map_cons, List.headD_cons]
        by_contra hc
        have hc' : hasSub "internal".data x = true := by
          simpa [notInternal, stringsContains] using hc
        have := hasSub_append _ x suf hc'
        rw [hx, ← hsuf] at this
        simp [notInternal, stringsContains, this] at hA

theorem sortSort_filter (p : String → Bool) (l : List String) :
    sortSort lessStr (l.filter p) = (sortSort lessStr l).filter p :=
  pairwise_le_unique strictTotal_lessStr
    ((sortSort_perm lessStr _).trans ((sortSort_perm lessStr l).filter p).symm)
    (sortSort_pairwise strictTotal_lessStr _)
    ((sortSort_pairwise strictTotal_lessStr l).filter p)

theorem generateLoop_filter {σ ε ω : Type} (env : Env σ ε ω) (l : List String)
    (i f : GoMap) :
    generateLoop env (l.filter notInternal) i f = generateLoop env l i f := by
  induction l generalizing i f with
  | nil => rfl
  | cons path rest ih =>
    by_cases hint : stringsContains path "internal" = true
    · simp [List.filter_cons, notInternal, generateLoop, hint, ih]
    · have hint' : stringsContains path "internal" = false := by simpa using hint
      simp only [List.filter_cons, notInternal, hint', Bool.not_false, if_true, generateLoop,
        Bool.false_eq_true, if_false]
      cases scopeOf env path with
      | error e => rfl
      | ok sa => exact ih _ _

theorem tables_filter {σ ε ω : Type} (env : Env σ ε ω) (pkgs : List String) :
    tables env (pkgs.filter notInternal) = tables env pkgs := by
  unfold tables
  rw [sortSort_filter, generateLoop_filter]

theorem flatMap_filter_of_nil {α β : Type} (p : α → Bool) (g : α → List β) (l : List α)
    (h : ∀ a ∈ l, p a = false → g a = []) : (l.filter p).flatMap g = l.flatMap g := by
  induction l with
  | nil => rfl
  | cons a as ih =>
    have ih' := ih (fun x hx => h x (List.mem_cons_of_mem _ hx))
    by_cases hp : p a = true
    · simp [List.filter_cons, hp, ih']
    · have hp' : p a = false := by simpa using hp
      simp [List.filter_cons, hp', ih', h a (List.mem_cons_self _ _) hp']

theorem prepare_filter (pkgs : List String) (in_ : GoMap)
    (h : ∀ e ∈ in_, notInternal (pkgName e.2) = true) :
    prepare (pkgs.filter notInternal) in_ = prepare pkgs in_ := by
  rw [prepare_eq_flatMap, prepare_eq_flatMap]
  apply flatMap_filter_of_nil
  intro p _ hp
  have hnil : (prepareMaps in_).pkgNames p = [] := by
    rw [prepareMaps_pkgNames, List.map_eq_nil_iff, List.filter_eq_nil_iff]
    intro e he hpe
    have := h e he
    simp only [decide_eq_true_eq] at hpe
    rw [hpe, hp] at this
    exact Bool.false_ne_true this
  rw [prepareGroup_eq, hnil]
  rfl

theorem firstWriter_notInternal {σ ε ω : Type} (env : Env σ ε ω) (hwf : env.WF)
    (sel : GoMap × GoMap → GoMap) (hsel : sel = Prod.fst ∨ sel = Prod.snd)
    (hU : ∀ e, e ∈ (env.FromScope env.Universe true).1 ∨
      e ∈ (env.FromScope env.Universe true).2 → '.' ∉ e.2.data)
    (l : List String) (S q : String) (h : firstWriter env sel l S = some q) :
    notInternal (pkgName q) = true := by
  obtain ⟨pre, A, post, maps, n, -, he, hn, rfl, -⟩ :=
    (firstWriter_eq_some_iff env sel l S q).1 h
  have hA : notInternal A = true := by
    by_contra hc
    have : stringsContains A "internal" = true := by simpa [notInternal] using hc
    simp [extracted, this] at he
  apply pkgName_fullName_notInternal A n hA
  intro hempty
  subst hempty
  have hm : maps = env.FromScope env.Universe true := by
    have h1 : stringsContains "" "internal" = false := by decide
    simp only [extracted, h1, scopeOf, ne_eq, not_true_eq_false, if_false,
      Bool.false_eq_true, Option.some.injEq] at he
    exact he.symm
  subst hm
  have hk := hwf.2 env.Universe true
  rcases hsel with rfl | rfl
  · exact hU (S, n) (Or.inl ((lookup_eq_some_iff_mem _ hk.1 S n).1 hn))
  · exact hU (S, n) (Or.inr ((lookup_eq_some_iff_mem _ hk.2 S n).1 hn))

/-- C2: a scope whose path contains `"internal"` contributes nothing, even when it
sorts first: for every scope list, loader and extractor, the outcome of the loop (the
two tables, or the error) is the one obtained from the scope list with every such path
removed, and so are the two grouped outputs, the names the extractor returns being Go
identifiers. -/
theorem generate_private_scope_exclusion {σ ε ω : Type} (env : Env σ ε ω)
    (hwf : env.WF) (hid : env.Identifiers) (pkgs : List String) :
    tables env (pkgs.filter notInternal) = tables env pkgs ∧
    (∀ d, templateData env pkgs = .ok d →
      ∃ d', templateData env (pkgs.filter notInternal) = .ok d' ∧
        d'.Ifaces = d.Ifaces ∧ d'.Funcs = d.Funcs) ∧
    (∀ err, templateData env pkgs = .error err →
      templateData env (pkgs.filter notInternal) = .error err) := by
  have hU : ∀ e, e ∈ (env.FromScope env.Universe true).1 ∨
      e ∈ (env.FromScope env.Universe true).2 → '.' ∉ e.2.data := by
    intro e he
    rcases he with h | h
    · exact (hid env.Universe true).1 e h
    · exact (hid env.Universe true).2 e h
  refine ⟨tables_filter env pkgs, ?_, ?_⟩
  swap
  · intro err herr
    unfold templateData at herr ⊢
    rw [tables_filter]
    cases ht : tables env pkgs with
    | error e =>
      rw [ht] at herr
      exact herr
    | ok t =>
      rw [ht] at herr
      cases herr
  intro d hd
  unfold templateData at hd ⊢
  rw [tables_filter]
  cases ht : tables env pkgs with
  | error err =>
    rw [ht] at hd
    cases hd
  | ok t =>
    obtain ⟨i, f⟩ := t
    rw [ht] at hd
    simp only [Except.ok.injEq] at hd
    subst hd
    have hs := tables_spec env hwf pkgs i f ht
    refine ⟨_, rfl, ?_, ?_⟩
    · show prepare (sortSort lessStr (pkgs.filter notInternal)) (env.Range i) =
        prepare (sortSort lessStr pkgs) (env.Range i)
      rw [sortSort_filter]
      apply prepare_filter
      intro e he
      have hmem : e ∈ i := (hwf.1 i).mem_iff.1 he
      have hl := (lookup_eq_some_iff_mem i hs.1.1 e.1 e.2).2 hmem
      rw [(hs.2 e.1).1] at hl
      exact firstWriter_notInternal env hwf Prod.fst (Or.inl rfl) hU _ _ _ hl
    · show prepare (sortSort lessStr (pkgs.filter notInternal)) (env.Range f) =
        prepare (sortSort lessStr pkgs) (env.Range f)
      rw [sortSort_filter]
      apply prepare_filter
      intro e he
      have hmem : e ∈ f := (hwf.1 f).mem_iff.1 he
      have hl := (lookup_eq_some_iff_mem f hs.1.2 e.1 e.2).2 hmem
      rw [(hs.2 e.1).2] at hl
      exact firstWriter_notInternal env hwf Prod.snd (Or.inr rfl) hU _ _ _ hl

/-- C2 on the scenario of the specification: `io/internal`, which exposes `S1` too,
changes neither the tables nor the grouped outputs. -/
theorem generate_private_scope_exclusion_witness :
    demoEnv.WF ∧ demoEnv.Identifiers ∧
    demoPkgs.filter notInternal = ["", "bytes", "io"] ∧
    tables demoEnv (demoPkgs.filter notInternal) = tables demoEnv demoPkgs ∧
    ∃ d', templateData demoEnv (demoPkgs.filter notInternal) = .ok d' ∧
      d'.Ifaces = demoData.Ifaces ∧ d'.Funcs = demoData.Funcs :=
  ⟨demoEnv_WF, demoEnv_Identifiers, by decide,
    (generate_private_scope_exclusion demoEnv demoEnv_WF demoEnv_Identifiers demoPkgs).1,
    (generate_private_scope_exclusion demoEnv demoEnv_WF demoEnv_Identifiers demoPkgs).2.1
      demoData (by with_unfolding_all rfl)⟩

/-! ## Soundness of `prepare` -/

theorem foldl_prepareStep_nameTypes_mem (in_ : GoMap) (st : prepMaps) (n : String)
    (hn : n ∈ in_.map Prod.snd) : ((in_.foldl prepareStep st).nameTypes n, n) ∈ in_ := by
  induction in_ generalizing st with
  | nil => simp at hn
  | cons e rest ih =>
    rw [List.foldl_cons]
    by_cases hr : n ∈ rest.map Prod.snd
    · exact List.mem_cons_of_mem _ (ih _ hr)
    · have hne : n = e.2 := by
        simp only [List.map_cons, List.mem_cons] at hn
        rcases hn with h | h
        · exact h
        · exact absurd h hr
      rw [foldl_prepareStep_nameTypes_of_not_mem _ _ _ hr]
      subst hne
      simp [prepareStep]

theorem mem_prepare_iff (pkgs : List String) (in_ : GoMap) (r : pkgType) :
    r ∈ prepare pkgs in_ ↔ ∃ path ∈ pkgs, r ∈ prepareGroup (prepareMaps in_) path := by
  rw [prepare_eq_flatMap, List.mem_flatMap]

/-- C15: with no precondition on the map or the scope list, every row of the result of
`prepare` is an entry of the input map, so that `in[Type] = Path` when the keys of the
entry list are distinct as in a map, and `pkgName(Path)` is a path of the scope list. -/
theorem prepare_sound (pkgs : List String) (in_ : GoMap) (r : pkgType)
    (hr : r ∈ prepare pkgs in_) :
    (r.Type_, r.Path) ∈ in_ ∧ pkgName r.Path ∈ pkgs ∧
    (in_.keys.Nodup → in_.get? r.Type_ = some r.Path) := by
  obtain ⟨path, hpath, hg⟩ := (mem_prepare_iff pkgs in_ r).1 hr
  have hown := pkgName_of_mem_prepareGroup in_ path r hg
  have hmem : (r.Type_, r.Path) ∈ in_ := by
    have hval := mem_in_of_mem_prepareGroup in_ path r hg
    rw [prepareGroup_eq, List.mem_map] at hg
    obtain ⟨n, -, rfl⟩ := hg
    exact foldl_prepareStep_nameTypes_mem in_ _ n hval
  refine ⟨hmem, by rw [hown]; exact hpath, fun hk => ?_⟩
  exact (lookup_eq_some_iff_mem in_ hk r.Type_ r.Path).2 hmem

/-- C15 on a scope list with a repeated path and a map with a name owned by no listed
scope (`os.File`) and two signatures for one name (`io.N`). -/
theorem prepare_sound_witness :
    (⟨"S2", "io.N"⟩ : pkgType) ∈
      prepare ["io", "io"] [("S1", "io.N"), ("S2", "io.N"), ("S3", "os.File")] ∧
    (("S2", "io.N") ∈ ([("S1", "io.N"), ("S2", "io.N"), ("S3", "os.File")] : GoMap) ∧
      pkgName "io.N" ∈ ["io", "io"] ∧
      ((GoMap.keys [("S1", "io.N"), ("S2", "io.N"), ("S3", "os.File")]).Nodup →
        GoMap.get? [("S1", "io.N"), ("S2", "io.N"), ("S3", "os.File")] "S2" =
          some "io.N")) :=
  ⟨by decide!,
    prepare_sound ["io", "io"] [("S1", "io.N"), ("S2", "io.N"), ("S3", "os.File")]
      ⟨"S2", "io.N"⟩ (by decide!)⟩

/-! ## The universal scope and the emitted scope list -/

theorem utf8ByteSize_go_pos (c : Char) (cs : List Char) :
    0 < String.utf8ByteSize.go (c :: cs) := by
  have := c.utf8Size_pos
  simp only [String.utf8ByteSize.go]
  omega

theorem len_pos_of_ne_empty (p : String) (hp : p ≠ "") : 0 < len p := by
  obtain ⟨cs⟩ := p
  cases cs with
  | nil => exact absurd rfl hp
  | cons c cs => exact utf8ByteSize_go_pos c cs

theorem lessStr_empty (p : String) (hp : p ≠ "") :
    lessStr "" p = true ∧ lessStr p "" = false := by
  have h : lessStr "" p = true := by
    rw [lessStr_iff]
    exact Or.inl (len_pos_of_ne_empty p hp)
  exact ⟨h, lessStr_asymm h⟩

theorem head_sortSort_of_mem_empty (pkgs : List String) (h : "" ∈ pkgs) :
    (sortSort lessStr pkgs).head? = some "" := by
  have hmem : "" ∈ sortSort lessStr pkgs := mem_sortSort.2 h
  have hpw := sortSort_pairwise strictTotal_lessStr pkgs
  cases hl : sortSort lessStr pkgs with
  | nil =>
    rw [hl] at hmem
    simp at hmem
  | cons a t =>
    rw [hl] at hmem hpw
    by_cases ha : a = ""
    · simp [ha]
    · rcases List.mem_cons.1 hmem with h' | h'
      · exact absurd h'.symm ha
      · have := (List.pairwise_cons.1 hpw).1 "" h'
        rw [(lessStr_empty a ha).1] at this
        cases this

theorem templateData_ok {σ ε ω : Type} (env : Env σ ε ω) (pkgs : List String)
    (d : tmplData) (h : templateData env pkgs = .ok d) :
    ∃ i f, tables env pkgs = .ok (i, f) ∧
      d = ⟨sortSort lessStr pkgs, prepare (sortSort lessStr pkgs) (env.Range i),
        prepare (sortSort lessStr pkgs) (env.Range f)⟩ := by
  unfold templateData at h
  cases ht : tables env pkgs with
  | error err =>
    rw [ht] at h
    cases h
  | ok t =>
    obtain ⟨i, f⟩ := t
    rw [ht] at h
    simp only [Except.ok.injEq] at h
    exact ⟨i, f, rfl, h.symm⟩

/-- C13: the `Pkgs` value `generate` hands to the template is a permutation of the input
scope list, paths containing `"internal"` included, and is sorted by `byLength`: no
element is `Less` than an earlier one, so no adjacent pair is out of order; it is also
the list `generate` leaves in the package-level variable. -/
theorem generate_pkgs_sorted_permutation {σ ε ω : Type} (env : Env σ ε ω)
    (pkgs : List String) (d : tmplData) (h : templateData env pkgs = .ok d) :
    d.Pkgs.Perm pkgs ∧
    (∀ (i : Nat) (hi : i + 1 < d.Pkgs.length),
      byLength.Less d.Pkgs ⟨i + 1, hi⟩ ⟨i, Nat.lt_of_succ_lt hi⟩ = false) ∧
    (∀ (i j : Nat) (hi : i < d.Pkgs.length) (hj : j < d.Pkgs.length), i < j →
      byLength.Less d.Pkgs ⟨j, hj⟩ ⟨i, hi⟩ = false) ∧
    (∀ w : ω, (generate env pkgs w).pkgs = d.Pkgs) := by
  obtain ⟨i, f, -, rfl⟩ := templateData_ok env pkgs d h
  have hpw := List.pairwise_iff_getElem.1 (sortSort_pairwise strictTotal_lessStr pkgs)
  refine ⟨sortSort_perm lessStr pkgs, ?_, ?_, ?_⟩
  · intro k hk
    exact hpw k (k + 1) (Nat.lt_of_succ_lt hk) hk (Nat.lt_succ_self k)
  · intro a b ha hb hab
    exact hpw a b ha hb hab
  · intro w
    unfold generate
    cases templateData env pkgs <;> rfl

/-- C13 on the scenario of the specification. -/
theorem generate_pkgs_sorted_permutation_witness :
    templateData demoEnv demoPkgs = .ok demoData ∧
    demoData.Pkgs.Perm demoPkgs ∧
    byLength.Less demoData.Pkgs ⟨1, by decide⟩ ⟨0, by decide⟩ = false ∧
    (generate demoEnv demoPkgs []).pkgs = demoData.Pkgs :=
  ⟨by with_unfolding_all rfl,
    (generate_pkgs_sorted_permutation demoEnv demoPkgs demoData
      (by with_unfolding_all rfl)).1,
    (generate_pkgs_sorted_permutation demoEnv demoPkgs demoData
      (by with_unfolding_all rfl)).2.1 0 (by decide),
    (generate_pkgs_sorted_permutation demoEnv demoPkgs demoData
      (by with_unfolding_all rfl)).2.2.2 []⟩

/-! ## The keys of the two tables -/

theorem mem_keys_iff_get?_ne_none (m : GoMap) (S : String) :
    S ∈ m.keys ↔ m.get? S ≠ none := by
  rw [← lookup_isSome_iff_mem_keys, GoMap.get?]
  cases m.lookup S <;> simp

theorem firstWriter_ne_none_iff {σ ε ω : Type} (env : Env σ ε ω)
    (sel : GoMap × GoMap → GoMap) (l : List String) (S : String) :
    firstWriter env sel l S ≠ none ↔
      ∃ A ∈ l, ∃ m, extracted env A = some m ∧ S ∈ (sel m).keys := by
  rw [Ne, firstWriter_eq_none_iff]
  constructor
  · intro h
    by_contra hc
    apply h
    intro A hA m hm
    by_contra hne
    exact hc ⟨A, hA, m, hm, (mem_keys_iff_get?_ne_none _ S).2 hne⟩
  · rintro ⟨A, hA, m, hm, hS⟩ h
    exact (mem_keys_iff_get?_ne_none _ S).1 hS (h A hA m hm)

theorem tables_keys {σ ε ω : Type} (env : Env σ ε ω) (hwf : env.WF) (pkgs : List String)
    (i f : GoMap) (h : tables env pkgs = .ok (i, f)) (S : String) :
    (S ∈ i.keys ↔ ∃ A ∈ pkgs, ∃ m, extracted env A = some m ∧ S ∈ m.1.keys) ∧
    (S ∈ f.keys ↔ ∃ A ∈ pkgs, ∃ m, extracted env A = some m ∧ S ∈ m.2.keys) := by
  have hs := (tables_spec env hwf pkgs i f h).2 S
  constructor
  · rw [mem_keys_iff_get?_ne_none, GoMap.get?, hs.1, firstWriter_ne_none_iff]
    exact ⟨fun ⟨A, hA, r⟩ => ⟨A, mem_sortSort.1 hA, r⟩,
      fun ⟨A, hA, r⟩ => ⟨A, mem_sortSort.2 hA, r⟩⟩
  · rw [mem_keys_iff_get?_ne_none, GoMap.get?, hs.2, firstWriter_ne_none_iff]
    exact ⟨fun ⟨A, hA, r⟩ => ⟨A, mem_sortSort.1 hA, r⟩,
      fun ⟨A, hA, r⟩ => ⟨A, mem_sortSort.2 hA, r⟩⟩

/-- C11, as amended: a signature is a key of both tables of `generate` exactly when
some non-skipped scope exposes it in its interface map and some non-skipped scope
exposes it in its function map; so no signature is a key of both tables provided the
extractor never gives one signature string as an interface shape of a listed scope and
as a function shape of a listed scope. -/
theorem generate_cross_table_keys {σ ε ω : Type} (env : Env σ ε ω) (hwf : env.WF)
    (pkgs : List String) (i f : GoMap) (h : tables env pkgs = .ok (i, f)) :
    (∀ S, (S ∈ i.keys ∧ S ∈ f.keys) ↔
      (∃ A ∈ pkgs, ∃ m, extracted env A = some m ∧ S ∈ m.1.keys) ∧
      (∃ B ∈ pkgs, ∃ m, extracted env B = some m ∧ S ∈ m.2.keys)) ∧
    ((∀ A ∈ pkgs, ∀ B ∈ pkgs, ∀ mA mB, extracted env A = some mA →
        extracted env B = some mB → ∀ S, S ∈ mA.1.keys → S ∉ mB.2.keys) →
      ∀ S, ¬ (S ∈ i.keys ∧ S ∈ f.keys)) := by
  have hk := tables_keys env hwf pkgs i f h
  refine ⟨fun S => by rw [(hk S).1, (hk S).2], ?_⟩
  intro hdisj S hS
  obtain ⟨A, hA, mA, hmA, hSA⟩ := (hk S).1.1 hS.1
  obtain ⟨B, hB, mB, hmB, hSB⟩ := (hk S).2.1 hS.2
  exact hdisj A hA B hB mA mB hmA hmB S hSA hSB

theorem demoEnv_no_leak (A B : String) (mA mB : GoMap × GoMap)
    (hA : extracted demoEnv A = some mA) (hB : extracted demoEnv B = some mB)
    (S : String) (hSA : S ∈ mA.1.keys) : S ∉ mB.2.keys := by
  have key : ∀ (P : String) (m : GoMap × GoMap), extracted demoEnv P = some m →
      (∀ S ∈ m.1.keys, S ∈ ["S0", "S1", "S2", "S3", "S9"]) ∧
      (∀ S ∈ m.2.keys, S ∈ ["F1", "F2", "F9"]) := by
    intro P m hm
    unfold extracted at hm
    split at hm
    · cases hm
    · split at hm
      · cases hm
      · rename_i scope all _
        simp only [Option.some.injEq] at hm
        subst hm
        cases scope <;> cases all <;> exact ⟨by decide, by decide⟩
  intro hSB
  have h1 := (key A mA hA).1 S hSA
  have h2 := (key B mB hB).2 S hSB
  simp only [List.mem_cons, List.mem_singleton, List.not_mem_nil, or_false] at h1 h2
  rcases h1 with rfl | rfl | rfl | rfl | rfl <;> simp at h2

/-- C11 on the scenario of the specification, where interface shapes are `S…` and
function shapes `F…`: no signature is a key of both tables. -/
theorem generate_cross_table_keys_witness :
    demoEnv.WF ∧
    tables demoEnv demoPkgs =
      .ok ([("S0", "error"), ("S2", "io.Closer"), ("S1", "io.Reader"),
          ("S3", "bytes.Scanner")],
        [("F1", "io.WalkFunc"), ("F2", "bytes.MapFunc")]) ∧
    ∀ S, ¬ (S ∈ GoMap.keys [("S0", "error"), ("S2", "io.Closer"), ("S1", "io.Reader"),
        ("S3", "bytes.Scanner")] ∧
      S ∈ GoMap.keys [("F1", "io.WalkFunc"), ("F2", "bytes.MapFunc")]) :=
  ⟨demoEnv_WF, rfl,
    (generate_cross_table_keys demoEnv demoEnv_WF demoPkgs _ _ rfl).2
      (fun A _ B _ mA mB hA hB S hSA => demoEnv_no_leak A B mA mB hA hB S hSA)⟩

/-- C11 as stated fails: when the extractor gives the universal scope the signature
string `S` both as an interface shape and as a function shape, `S` is a key of both
tables. -/
theorem generate_cross_table_leak :
    tables leakyEnv [""] = .ok ([("S", "Runner")], [("S", "RunFunc")]) ∧
    "S" ∈ GoMap.keys [("S", "Runner")] ∧ "S" ∈ GoMap.keys [("S", "RunFunc")] :=
  ⟨rfl, by decide, by decide⟩

/-! ## The caller's order of the scope list -/

/-- C14: for every scope list and every permutation of it, `generate` with the same
loader and extractor sorts both to the same list and, whatever order the maps are
visited in on either run, produces the same outcome of the loop (the same error, or
tables with the same value for every signature), the same value for the template with
its two grouped outputs, and the same result; run in one environment, the two tables
are equal entry for entry. The extractor's maps have distinct keys and, as Go
declarations do, dot-free names with one signature each. -/
theorem generate_list_order_irrelevant {σ ε ω : Type} (env : Env σ ε ω)
    (pkgs pkgs' : List String) (hp : pkgs'.Perm pkgs) :
    sortSort lessStr pkgs' = sortSort lessStr pkgs ∧
    tables env pkgs' = tables env pkgs ∧
    templateData env pkgs' = templateData env pkgs ∧
    (∀ w : ω, generate env pkgs' w = generate env pkgs w) ∧
    (env.WF → ∀ r : GoMap → GoMap, (∀ m, (r m).Perm m) →
      (∀ err, tables env pkgs = .error err →
        tables { env with Range := r } pkgs' = .error err) ∧
      (∀ i f, tables env pkgs = .ok (i, f) →
        ∃ i' f', tables { env with Range := r } pkgs' = .ok (i', f') ∧
          (∀ S, i'.get? S = i.get? S) ∧ (∀ S, f'.get? S = f.get? S) ∧
          ((i.map Prod.snd).Nodup → (f.map Prod.snd).Nodup →
            templateData { env with Range := r } pkgs' = templateData env pkgs)) ∧
      (env.Identifiers → env.OneTypePerName →
        templateData { env with Range := r } pkgs' = templateData env pkgs ∧
        ∀ w : ω, generate { env with Range := r } pkgs' w = generate env pkgs w)) := by
  have hsort : sortSort lessStr pkgs' = sortSort lessStr pkgs :=
    sortSort_congr strictTotal_lessStr hp
  have ht : ∀ e : Env σ ε ω, tables e pkgs' = tables e pkgs := by
    intro e
    unfold tables
    rw [hsort]
  have hd : ∀ e : Env σ ε ω, templateData e pkgs' = templateData e pkgs := by
    intro e
    unfold templateData
    rw [ht e, hsort]
  refine ⟨hsort, ht env, hd env, ?_, ?_⟩
  · intro w
    unfold generate
    rw [hd env, hsort]
  · intro hwf r hr
    refine ⟨?_, ?_, ?_⟩
    · intro err h
      exact (ht _).trans (tables_error_range env r pkgs err h)
    · intro i f h
      obtain ⟨i', f', h', hi, hf⟩ := tables_range env hwf r hr pkgs i f h
      have hk := (tables_spec env hwf pkgs i f h).1
      refine ⟨i', f', (ht _).trans h', fun S => (lookup_perm hi hk.1 S).symm,
        fun S => (lookup_perm hf hk.2 S).symm, ?_⟩
      intro hvi hvf
      exact (hd _).trans (templateData_range_of_nodup env hwf r hr pkgs i f h hvi hvf)
    · intro hid hone
      have e := (hd { env with Range := r }).trans
        (templateData_range env hwf hid hone r hr pkgs)
      refine ⟨e, fun w => ?_⟩
      unfold generate
      rw [e, hsort]

/-- C14 on the scenario of the specification and its scope list reversed, the maps
being visited in another order on the reversed list. -/
theorem generate_list_order_irrelevant_witness :
    List.Perm ["io/internal", "io", "bytes", ""] demoPkgs ∧
    sortSort lessStr ["io/internal", "io", "bytes", ""] = sortSort lessStr demoPkgs ∧
    tables demoEnv ["io/internal", "io", "bytes", ""] = tables demoEnv demoPkgs ∧
    templateData demoEnv ["io/internal", "io", "bytes", ""] =
      templateData demoEnv demoPkgs ∧
    templateData { demoEnv with Range := s2First } ["io/internal", "io", "bytes", ""] =
      templateData demoEnv demoPkgs ∧
    generate { demoEnv with Range := s2First } ["io/internal", "io", "bytes", ""] [] =
      generate demoEnv demoPkgs [] :=
  ⟨by decide,
    (generate_list_order_irrelevant demoEnv demoPkgs ["io/internal", "io", "bytes", ""]
      (by decide)).1,
    (generate_list_order_irrelevant demoEnv demoPkgs ["io/internal", "io", "bytes", ""]
      (by decide)).2.1,
    (generate_list_order_irrelevant demoEnv demoPkgs ["io/internal", "io", "bytes", ""]
      (by decide)).2.2.1,
    ((generate_list_order_irrelevant demoEnv demoPkgs ["io/internal", "io", "bytes", ""]
      (by decide)).2.2.2.2 demoEnv_WF s2First s2First_perm).2.2
      demoEnv_Identifiers demoEnv_OneTypePerName |>.1,
    ((generate_list_order_irrelevant demoEnv demoPkgs ["io/internal", "io", "bytes", ""]
      (by decide)).2.2.2.2 demoEnv_WF s2First s2First_perm).2.2
      demoEnv_Identifiers demoEnv_OneTypePerName |>.2 []⟩

/-! ## The scopes that supplied the rows of a grouped output -/

theorem mem_entry_of_mem_prepare (pkgs : List String) (in_ : GoMap) (r : pkgType)
    (hr : r ∈ prepare pkgs in_) : (r.Type_, r.Path) ∈ in_ := by
  obtain ⟨path, -, hg⟩ := (mem_prepare_iff pkgs in_ r).1 hr
  have hval := mem_in_of_mem_prepareGroup in_ path r hg
  rw [prepareGroup_eq, List.mem_map] at hg
  obtain ⟨n, -, rfl⟩ := hg
  exact foldl_prepareStep_nameTypes_mem in_ _ n hval

theorem row_firstExposing {σ ε ω : Type} (env : Env σ ε ω)
    (sel : GoMap × GoMap → GoMap)
    (hk : ∀ s all, (sel (env.FromScope s all)).keys.Nodup)
    (hd : ∀ s all, ∀ e ∈ sel (env.FromScope s all), '.' ∉ e.2.data)
    (l pk : List String) (t in_ : GoMap) (ht : t.keys.Nodup)
    (hs : ∀ S, t.lookup S = firstWriter env sel l S) (hperm : in_.Perm t)
    (r : pkgType) (hr : r ∈ prepare pk in_) :
    ∃ A n, firstExposing env sel l r.Type_ = some (A, n) ∧ r.Path = fullName A n ∧
      A ∈ l ∧ '.' ∉ n.data := by
  have hmem : (r.Type_, r.Path) ∈ t := hperm.mem_iff.1 (mem_entry_of_mem_prepare pk in_ r hr)
  obtain ⟨A, n, hf, hq⟩ := entry_firstExposing env sel l t ht hs _ hmem
  obtain ⟨hA, m, hm, hg⟩ := firstExposing_some env sel l _ A n hf
  obtain ⟨-, s, all, rfl, -⟩ := extracted_some env A m hm
  have hn := hd s all _ ((lookup_eq_some_iff_mem _ (hk s all) _ n).1 hg)
  exact ⟨A, n, hf, hq, hA, hn⟩

theorem pkgName_fullName_of_no_dot (A n : String) (hA : '.' ∉ A.data)
    (hn : '.' ∉ n.data) : pkgName (fullName A n) = A := by
  unfold fullName
  by_cases h : A = ""
  · rw [if_pos h, pkgName_of_no_dot _ hn, h]
  · rw [if_neg h, pkgName_dotted _ _ hA]

theorem supplierOrdered_prepare {σ ε ω : Type} (env : Env σ ε ω)
    (sel : GoMap × GoMap → GoMap)
    (hk : ∀ s all, (sel (env.FromScope s all)).keys.Nodup)
    (hd : ∀ s all, ∀ e ∈ sel (env.FromScope s all), '.' ∉ e.2.data)
    (l : List String) (hl : l.Pairwise (fun a b => lessStr b a = false))
    (hdot : ∀ p ∈ l, '.' ∉ p.data) (t in_ : GoMap) (ht : t.keys.Nodup)
    (hs : ∀ S, t.lookup S = firstWriter env sel l S) (hperm : in_.Perm t) :
    (∀ r ∈ prepare l in_, ∃ A n, firstExposing env sel l r.Type_ = some (A, n) ∧
      r.Path = fullName A n) ∧
    SupplierOrdered (supplier env sel l) (prepare l in_) := by
  have hsup : ∀ r ∈ prepare l in_, supplier env sel l r = some (pkgName r.Path) := by
    intro r hr
    obtain ⟨A, n, hf, hq, hA, hn⟩ :=
      row_firstExposing env sel hk hd l l t in_ ht hs hperm r hr
    rw [supplier, hf, hq, pkgName_fullName_of_no_dot A n (hdot A hA) hn]
    rfl
  have key : ∀ (i j : Nat) (hi : i < (prepare l in_).length)
      (hj : j < (prepare l in_).length),
      lessStr (pkgName ((prepare l in_).get ⟨i, hi⟩).Path)
        (pkgName ((prepare l in_).get ⟨j, hj⟩).Path) = true → i < j :=
    fun i j hi hj h => prepare_index_order l in_ hl i j hi hj h
  refine ⟨?_, ?_, ?_⟩
  · intro r hr
    obtain ⟨A, n, hf, hq, -, -⟩ :=
      row_firstExposing env sel hk hd l l t in_ ht hs hperm r hr
    exact ⟨A, n, hf, hq⟩
  · intro i j hi hj p₁ p₂ h₁ h₂ hlt
    rw [hsup _ (List.get_mem _ _ _), Option.some.injEq] at h₁ h₂
    apply key i j hi hj
    rw [h₁, h₂]
    exact (lessStr_iff _ _).2 hlt
  · intro i k j hi hk' hj hik hkj he
    rw [hsup _ (List.get_mem _ _ _), hsup _ (List.get_mem _ _ _), Option.some.injEq] at he
    rw [hsup _ (List.get_mem _ _ _), hsup _ (List.get_mem _ _ _), Option.some.injEq]
    by_contra hne
    rcases lessStr_connected hne with h | h
    · have := key k i hk' hi h
      omega
    · rw [he] at h
      have := key j k hj hk' h
      omega

/-- C3, as amended: when no listed scope path contains a `"."` (the names the
extractor returns being Go identifiers), every row of both grouped outputs that
`generate` hands to the template was supplied by a scope of the list, and a row
supplied by a scope whose path is shorter than that of the scope of another row, or of
equal length and lexically smaller, occurs before that row; the rows of one scope are
contiguous. -/
theorem generate_scope_ordering {σ ε ω : Type} (env : Env σ ε ω) (hwf : env.WF)
    (hid : env.Identifiers) (pkgs : List String) (hdot : ∀ p ∈ pkgs, '.' ∉ p.data)
    (d : tmplData) (h : templateData env pkgs = .ok d) :
    ((∀ r ∈ d.Ifaces, ∃ A n,
        firstExposing env Prod.fst (sortSort lessStr pkgs) r.Type_ = some (A, n) ∧
        r.Path = fullName A n) ∧
      SupplierOrdered (supplier env Prod.fst (sortSort lessStr pkgs)) d.Ifaces) ∧
    ((∀ r ∈ d.Funcs, ∃ A n,
        firstExposing env Prod.snd (sortSort lessStr pkgs) r.Type_ = some (A, n) ∧
        r.Path = fullName A n) ∧
      SupplierOrdered (supplier env Prod.snd (sortSort lessStr pkgs)) d.Funcs) := by
  obtain ⟨i, f, ht, rfl⟩ := templateData_ok env pkgs d h
  have hs := tables_spec env hwf pkgs i f ht
  have hl := sortSort_pairwise strictTotal_lessStr pkgs
  have hdot' : ∀ p ∈ sortSort lessStr pkgs, '.' ∉ p.data :=
    fun p hp => hdot p (mem_sortSort.1 hp)
  exact ⟨supplierOrdered_prepare env Prod.fst (fun s all => (hwf.2 s all).1)
      (fun s all => (hid s all).1) _ hl hdot' i _ hs.1.1 (fun S => (hs.2 S).1) (hwf.1 i),
    supplierOrdered_prepare env Prod.snd (fun s all => (hwf.2 s all).2)
      (fun s all => (hid s all).2) _ hl hdot' f _ hs.1.2 (fun S => (hs.2 S).2) (hwf.1 f)⟩

/-- C3 on the scenario of the specification: the rows of `""`, of `io` and of `bytes`
follow one another in that order. -/
theorem generate_scope_ordering_witness :
    demoEnv.WF ∧ demoEnv.Identifiers ∧ (∀ p ∈ demoPkgs, '.' ∉ p.data) ∧
    templateData demoEnv demoPkgs = .ok demoData ∧
    SupplierOrdered (supplier demoEnv Prod.fst (sortSort lessStr demoPkgs)) demoData.Ifaces ∧
    SupplierOrdered (supplier demoEnv Prod.snd (sortSort lessStr demoPkgs)) demoData.Funcs :=
  ⟨demoEnv_WF, demoEnv_Identifiers, by decide, by with_unfolding_all rfl,
    (generate_scope_ordering demoEnv demoEnv_WF demoEnv_Identifiers demoPkgs (by decide)
      demoData (by with_unfolding_all rfl)).1.2,
    (generate_scope_ordering demoEnv demoEnv_WF demoEnv_Identifiers demoPkgs (by decide)
      demoData (by with_unfolding_all rfl)).2.2⟩

/-- C3 as stated fails for a scope path that contains a dot: with the scopes `a.b`,
`zz`, `a`, the row `a.b.Closer`, supplied by `a.b`, is grouped under `a` and emitted
before the rows of `zz`, although `zz` is shorter than `a.b`. -/
theorem generate_dotted_path_out_of_order :
    templateData dottedPathEnv ["a.b", "zz", "a"] =
      .ok ⟨["a", "zz", "a.b"],
        [⟨"S2", "a.b.Closer"⟩, ⟨"S1", "zz.ByteReader"⟩, ⟨"S3", "zz.Scanner"⟩],
        [⟨"F1", "a.b.WalkFunc"⟩, ⟨"F2", "zz.MapFunc"⟩]⟩ ∧
    ¬ SupplierOrdered (supplier dottedPathEnv Prod.fst ["a", "zz", "a.b"])
      [⟨"S2", "a.b.Closer"⟩, ⟨"S1", "zz.ByteReader"⟩, ⟨"S3", "zz.Scanner"⟩] := by
  refine ⟨by with_unfolding_all rfl, fun h => ?_⟩
  have := h.1 1 0 (by decide) (by decide) "zz" "a.b" (by decide) (by decide)
    (Or.inl (by decide))
  omega

/-! ## The rows of the universal scope -/

theorem splitChars_append_length (sep : Char) (a n : List Char) :
    2 ≤ (splitChars sep (a ++ sep :: n)).length := by
  induction a with
  | nil =>
    cases hs : splitChars sep n with
    | nil => exact absurd hs (splitChars_ne_nil sep n)
    | cons x xs => simp [splitChars, hs]
  | cons c cs ih =>
    by_cases hc : c = sep
    · subst hc
      have e : splitChars c (c :: cs ++ c :: n) = [] :: splitChars c (cs ++ c :: n) := by
        simp [splitChars]
      rw [e, List.length_cons]
      omega
    · cases hs : splitChars sep (cs ++ sep :: n) with
      | nil => exact absurd hs (splitChars_ne_nil _ _)
      | cons x xs =>
        rw [hs] at ih
        simpa [splitChars, hc, hs] using ih

theorem pkgName_fullName_ne_empty (A n : String) (hA : A ≠ "")
    (hb : A.data.head? ≠ some '.') : pkgName (fullName A n) ≠ "" := by
  unfold fullName
  rw [if_neg hA]
  have e : (A ++ "." ++ n).data = A.data ++ '.' :: n.data := by
    simp [String.data_append]
  have hlen := splitChars_append_length '.' A.data n.data
  have hhead := splitChars_head_append '.' A.data n.data
  unfold pkgName stringsSplit
  simp only [e]
  have hne1 : ¬ ((splitChars '.' (A.data ++ '.' :: n.data)).map String.mk).length = 1 := by
    rw [List.length_map]
    omega
  rw [if_neg hne1]
  obtain ⟨cs⟩ := A
  cases cs with
  | nil => exact absurd rfl hA
  | cons c t =>
    have hc : c ≠ '.' := fun h => hb (by simp [h])
    cases e₁ : splitChars '.' ((c :: t) ++ '.' :: n.data) with
    | nil => exact absurd e₁ (splitChars_ne_nil _ _)
    | cons x xs =>
      simp only at hhead
      rw [e₁] at hhead
      simp only [List.headD_cons] at hhead
      cases e₂ : splitChars '.' t with
      | nil => exact absurd e₂ (splitChars_ne_nil _ _)
      | cons y ys =>
        simp only [splitChars, hc, if_false, e₂, List.headD_cons] at hhead
        simp only [List.map_cons, List.headD_cons]
        intro hx
        have := congrArg String.data hx
        rw [hhead] at this
        simp at this

theorem universalFirst_prepare {σ ε ω : Type} (env : Env σ ε ω)
    (sel : GoMap × GoMap → GoMap)
    (hk : ∀ s all, (sel (env.FromScope s all)).keys.Nodup)
    (hd : ∀ s all, ∀ e ∈ sel (env.FromScope s all), '.' ∉ e.2.data)
    (l : List String) (hl : l.Pairwise (fun a b => lessStr b a = false))
    (hb : ∀ p ∈ l, p.data.head? ≠ some '.') (t in_ : GoMap) (ht : t.keys.Nodup)
    (hs : ∀ S, t.lookup S = firstWriter env sel l S) (hperm : in_.Perm t) :
    (∀ r ∈ prepare l in_, ∃ p, supplier env sel l r = some p) ∧
    UniversalFirst (supplier env sel l) (prepare l in_) := by
  have hrow : ∀ r ∈ prepare l in_, ∃ A n, supplier env sel l r = some A ∧
      r.Path = fullName A n ∧ A ∈ l ∧ '.' ∉ n.data := by
    intro r hr
    obtain ⟨A, n, hf, hq, hA, hn⟩ :=
      row_firstExposing env sel hk hd l l t in_ ht hs hperm r hr
    exact ⟨A, n, by rw [supplier, hf]; rfl, hq, hA, hn⟩
  refine ⟨fun r hr => ?_, ?_⟩
  · obtain ⟨A, -, hA, -⟩ := hrow r hr
    exact ⟨A, hA⟩
  · intro i j hi hj p h₁ h₂ hp
    obtain ⟨A₁, n₁, hs₁, hq₁, -, hn₁⟩ := hrow _ (List.get_mem (prepare l in_) i hi)
    obtain ⟨A₂, n₂, hs₂, hq₂, hA₂, -⟩ := hrow _ (List.get_mem (prepare l in_) j hj)
    rw [hs₁, Option.some.injEq] at h₁
    rw [hs₂, Option.some.injEq] at h₂
    subst h₁
    subst h₂
    have e₁ : pkgName ((prepare l in_).get ⟨i, hi⟩).Path = "" := by
      rw [hq₁]
      exact pkgName_fullName_of_no_dot "" n₁ (by decide) hn₁
    have e₂ : pkgName ((prepare l in_).get ⟨j, hj⟩).Path ≠ "" := by
      rw [hq₂]
      exact pkgName_fullName_ne_empty A₂ n₂ hp (hb A₂ hA₂)
    apply prepare_index_order l in_ hl i j hi hj
    rw [e₁]
    exact (lessStr_empty _ e₂).1

/-- C12, as amended: for every non-empty path `p`, `Less("", p)` holds and `Less(p, "")`
does not, so a scope list that contains the empty path has it at index 0 after
sorting; and when no listed path begins with a `"."` (the names the extractor returns
being Go identifiers), every row of both grouped outputs has a supplying scope and
every row supplied by the empty path precedes every row supplied by a named scope. -/
theorem universal_scope_first {σ ε ω : Type} (env : Env σ ε ω) (pkgs : List String) :
    (∀ (l : byLength) (i j : Fin l.length), l.get i = "" → l.get j ≠ "" →
      l.Less i j = true ∧ l.Less j i = false) ∧
    ("" ∈ pkgs → (sortSort lessStr pkgs).head? = some "") ∧
    (env.WF → env.Identifiers → (∀ p ∈ pkgs, p.data.head? ≠ some '.') →
      ∀ d, templateData env pkgs = .ok d →
        ((∀ r ∈ d.Ifaces, ∃ p, supplier env Prod.fst (sortSort lessStr pkgs) r = some p) ∧
          UniversalFirst (supplier env Prod.fst (sortSort lessStr pkgs)) d.Ifaces) ∧
        ((∀ r ∈ d.Funcs, ∃ p, supplier env Prod.snd (sortSort lessStr pkgs) r = some p) ∧
          UniversalFirst (supplier env Prod.snd (sortSort lessStr pkgs)) d.Funcs)) := by
  refine ⟨?_, head_sortSort_of_mem_empty pkgs, ?_⟩
  · intro l i j hi hj
    unfold byLength.Less
    rw [hi]
    exact lessStr_empty _ hj
  · intro hwf hid hb d h
    obtain ⟨i, f, ht, rfl⟩ := templateData_ok env pkgs d h
    have hs := tables_spec env hwf pkgs i f ht
    have hl := sortSort_pairwise strictTotal_lessStr pkgs
    have hb' : ∀ p ∈ sortSort lessStr pkgs, p.data.head? ≠ some '.' :=
      fun p hp => hb p (mem_sortSort.1 hp)
    exact ⟨universalFirst_prepare env Prod.fst (fun s all => (hwf.2 s all).1)
        (fun s all => (hid s all).1) _ hl hb' i _ hs.1.1 (fun S => (hs.2 S).1) (hwf.1 i),
      universalFirst_prepare env Prod.snd (fun s all => (hwf.2 s all).2)
        (fun s all => (hid s all).2) _ hl hb' f _ hs.1.2 (fun S => (hs.2 S).2) (hwf.1 f)⟩

/-- C12 on the scenario of the specification: `""` is before `io`, it heads the sorted
list, and the row of `error` precedes the rows of `io` and `bytes`. -/
theorem universal_scope_first_witness :
    (byLength.Less ["io", ""] ⟨1, by decide⟩ ⟨0, by decide⟩ = true ∧
      byLength.Less ["io", ""] ⟨0, by decide⟩ ⟨1, by decide⟩ = false) ∧
    (sortSort lessStr demoPkgs).head? = some "" ∧
    templateData demoEnv demoPkgs = .ok demoData ∧
    UniversalFirst (supplier demoEnv Prod.fst (sortSort lessStr demoPkgs)) demoData.Ifaces ∧
    UniversalFirst (supplier demoEnv Prod.snd (sortSort lessStr demoPkgs)) demoData.Funcs :=
  ⟨(universal_scope_first demoEnv demoPkgs).1 ["io", ""] ⟨1, by decide⟩ ⟨0, by decide⟩
      (by decide) (by decide),
    (universal_scope_first demoEnv demoPkgs).2.1 (by decide),
    by with_unfolding_all rfl,
    ((universal_scope_first demoEnv demoPkgs).2.2 demoEnv_WF demoEnv_Identifiers
      (by decide) demoData (by with_unfolding_all rfl)).1.2,
    ((universal_scope_first demoEnv demoPkgs).2.2 demoEnv_WF demoEnv_Identifiers
      (by decide) demoData (by with_unfolding_all rfl)).2.2⟩

/-- C12 as stated fails for a named scope whose path begins with a dot: with the scopes
`""` and `./x`, the qualified names of `./x` parse to the empty path, so its rows join
the group of the universal scope and `./x.Closer` is emitted before `error`. -/
theorem generate_dot_path_before_universal :
    templateData dottedPathEnv ["", "./x"] =
      .ok ⟨["", "./x"],
        [⟨"S2", "./x.Closer"⟩, ⟨"S1", "./x.Reader"⟩, ⟨"S0", "error"⟩],
        [⟨"F1", "./x.WalkFunc"⟩]⟩ ∧
    ¬ UniversalFirst (supplier dottedPathEnv Prod.fst ["", "./x"])
      [⟨"S2", "./x.Closer"⟩, ⟨"S1", "./x.Reader"⟩, ⟨"S0", "error"⟩] := by
  refine ⟨by with_unfolding_all rfl, fun h => ?_⟩
  have := h 2 0 (by decide) (by decide) "./x" (by decide) (by decide) (by decide)
  omega

end Interfacer
